import Mathlib

set_option maxHeartbeats 2000000
set_option maxRecDepth 4000

/-!
Verification of the epitope-mapping core of `epitope_mapping_df.py`.

A response row of the DataFrame is embedded as a `Response` record; Python
ints become `Int`, residue strings become `List Char`, and a Python function
that can raise an exception returns an `Option` (`none` = the exception).
Dictionaries are embedded as association lists, `set(...)` values as
deduplicated lists (`List.dedup`), and `sorted(...)` as `List.insertionSort`
(Python's `sorted` is a stable comparison sort).
-/

/-- One row of the response DataFrame: the fields the core reads
(`protein`, `start`, `end`, `seq`).  The column `end` is called `end_`
because `end` is a reserved word in Lean. -/
structure Response where
  protein : String
  start : Int
  end_ : Int
  seq : List Char
deriving DecidableEq

instance : Inhabited Response := ⟨⟨"", 0, 0, []⟩⟩

/-- Positional row access `responses.iloc[i]` (the default is never reached
when `i` is in range, which every caller below guarantees). -/
def nth (rs : List Response) (i : Nat) : Response := rs.getD i default

/-- Python's `list(range(a, b))` on ints: `[a, a+1, ..., b-1]`, empty when `b ≤ a`. -/
def intRange (a b : Int) : List Int :=
  (List.range (b - a).toNat).map (fun (k : Nat) => a + (k : Int))

/-- `_coords(r)` with `plot=False`: `list(range(int(r.start), int(r.end)))`. -/
def _coords (r : Response) : List Int := intRange r.start r.end_

/-- `overlap(response1, response2)`: same protein and some coordinate of
`response1` occurring among the coordinates of `response2`. -/
def overlap (response1 response2 : Response) : Bool :=
  response1.protein == response2.protein &&
    (_coords response1).any (fun i => (_coords response2).contains i)

/-- `sharedCoords(island)`: starting from the coordinate set of row 0, the
loop intersects with every row's coordinates and returns the sorted result;
the running set is embedded as a list that only ever shrinks by `filter`. -/
def sharedCoords (island : List Response) : List Int :=
  match island with
  | [] => []
  | r0 :: _ =>
      List.insertionSort (fun a b => a ≤ b)
        (island.foldl
          (fun sc response => sc.filter (fun i => (_coords response).contains i))
          (_coords r0))

/-- The epitope descriptor dict built by the shared rules:
`dict(EpSeq=..., EpStart=..., EpEnd=...)`. -/
structure EpDesc where
  EpSeq : List Char
  EpStart : Int
  EpEnd : Int
deriving DecidableEq

/-- `identicalRule(island)`.  The result is `Option (Bool × Option EpDesc)`:
the outer `Option` is `none` if the Python code would raise (here: `iloc[0]`
on an empty frame, which the guard makes unreachable), the inner `Option`
models the empty dict `{}` of the reject branch.  `set(island.seq)` is
embedded as `dedup` of the `seq` column; only its size is used. -/
def identicalRule (island : List Response) : Option (Bool × Option EpDesc) :=
  if ((island.map (fun r => r.seq)).dedup).length = 1 then
    match island with
    | [] => none
    | r0 :: _ => some (true, some ⟨r0.seq, r0.start, r0.start + (r0.seq.length : Int)⟩)
  else some (false, none)

/-- The set `aas` built by `overlapRule` at shared coordinate `si`: the
residues `respSeq[si - respStart]` of all members whose sequence is long
enough (`si - respStart < len(respSeq)`), as a deduplicated list.
Since `si` is a shared coordinate, `si - respStart ≥ 0` for every member,
so the `toNat` index is the Python index. -/
def colAAs (island : List Response) (si : Int) : List Char :=
  ((island.filter (fun r => si - r.start < (r.seq.length : Int))).map
      (fun r => r.seq.getD (si - r.start).toNat '?')).dedup

/-- The body of the column loop of `overlapRule`: update
`(nOverlap, nMatching, seq)` for one shared coordinate, matching the three
branches (gap column, unanimous column, disagreeing column → `'X'`). -/
def overlapStep (island : List Response) (acc : Nat × Nat × List Char) (si : Int) :
    Nat × Nat × List Char :=
  let aas := colAAs island si
  if aas.contains '-' then (acc.1, acc.2.1, acc.2.2 ++ ['-'])
  else if aas.length = 1 then (acc.1 + 1, acc.2.1 + 1, acc.2.2 ++ [aas.headD 'X'])
  else (acc.1 + 1, acc.2.1, acc.2.2 ++ ['X'])

/-- The column walk of `overlapRule`: accumulate `(nOverlap, nMatching, seq)`
over all shared coordinates. -/
def overlapWalk (island : List Response) : Nat × Nat × List Char :=
  (sharedCoords island).foldl (overlapStep island) (0, 0, [])

/-- The claim's count of "overlapping" columns: shared columns at which no
member contributes a gap character (stated from the specification text, to
be compared with the code's `nOverlap`). -/
def specOverlappingCols (island : List Response) : Nat :=
  (sharedCoords island).countP (fun si => !(colAAs island si).contains '-')

/-- The claim's count of "matching" columns: shared columns at which no gap
is contributed and exactly one distinct residue is observed (stated from
the specification text, to be compared with the code's `nMatching`). -/
def specMatchingCols (island : List Response) : Nat :=
  (sharedCoords island).countP
    (fun si => !(colAAs island si).contains '-' && (colAAs island si).length == 1)

/-- `overlapRule(island, minOverlap, minSharedAA)`.  On acceptance the code
reads `sharedInds[0]` and `sharedInds[-1]`, which raises `IndexError` when
`sharedInds` is empty (possible only when both thresholds are ≤ 0); that
raise is the outer `none`. -/
def overlapRule (island : List Response) (minOverlap minSharedAA : Int) :
    Option (Bool × Option EpDesc) :=
  let sharedInds := sharedCoords island
  let w := overlapWalk island
  if minOverlap ≤ (w.1 : Int) ∧ minSharedAA ≤ (w.2.1 : Int) then
    match sharedInds with
    | [] => none
    | si0 :: rest => some (true, some ⟨w.2.2, si0, rest.getLastD si0 + 1⟩)
  else some (false, none)

/-- `overlapRule` applied at its declared default thresholds
`minOverlap=8`, `minSharedAA=6`. -/
def overlapRuleDefault (island : List Response) : Option (Bool × Option EpDesc) :=
  overlapRule island 8 6

/-- The body of the response loop of `assignResponseIslands`: response `ri`
is appended to every existing island that contains an overlapping member
(the `break` in the source only leaves the inner member loop, not the island
loop), and a response that overlaps no island starts a new singleton island. -/
def addResponse (responses : List Response) (islandList : List (List Nat)) (ri : Nat) :
    List (List Nat) :=
  let anyFound := islandList.any
    (fun island => island.any (fun islandRespi => overlap (nth responses ri) (nth responses islandRespi)))
  if anyFound then
    islandList.map (fun island =>
      if island.any (fun islandRespi => overlap (nth responses ri) (nth responses islandRespi)) then
        island ++ [ri]
      else island)
  else islandList ++ [[ri]]

/-- The `islandList` built by `assignResponseIslands` after scanning all rows. -/
def islandListOf (responses : List Response) : List (List Nat) :=
  (List.range responses.length).foldl (addResponse responses) []

/-- The `islandColumn` of `assignResponseIslands`: initialized to `''` for
every row (embedded as `none`), then overwritten with `'I%d' % islandi`
(embedded as `some islandi`) for every member of every island, in island
order — so the last island containing a row wins. -/
def islandColumn (responses : List Response) : List (Option Nat) :=
  (islandListOf responses).enum.foldl
    (fun col p => p.2.foldl (fun col2 i => col2.set i (some p.1)) col)
    (List.replicate responses.length none)

/-- Read entry `i` of the island column. -/
def colGet (col : List (Option Nat)) (i : Nat) : Option Nat := col.getD i none

/-- `i` and `j` are connected by a chain of pairwise `overlap`s. -/
def Connected (rs : List Response) (a b : Nat) : Prop :=
  Relation.ReflTransGen (fun x y => overlap (nth rs x) (nth rs y) = true) a b

/-- `itertools.combinations(xs, k)` (as index lists) in lexicographic order. -/
def combinations : Nat → List Nat → List (List Nat)
  | 0, _ => [[]]
  | _ + 1, [] => []
  | k + 1, x :: xs => (combinations k xs).map (fun c => x :: c) ++ combinations (k + 1) xs

/-- Step 2 of `findEpitopes`: all non-empty subsets of `range n`, size
1 up to `n`, each size block in `itertools.combinations` order. -/
def subsetsAsc (n : Nat) : List (List Nat) :=
  ((List.range' 1 n).map (fun N => combinations N (List.range n))).flatten

/-- Python dict lookup on an association list. -/
def lookupAL {α β : Type} [BEq α] (l : List (α × β)) (k : α) : Option β :=
  (l.find? (fun p => p.1 == k)).map (fun p => p.2)

/-- `redundantD[coords[(st, en)]].append(i)`: append `i` to the list stored
under key `k` (keys are unique, so at most one entry changes). -/
def appendAL (l : List (Nat × List Nat)) (k : Nat) (v : Nat) : List (Nat × List Nat) :=
  l.map (fun p => if p.1 == k then (p.1, p.2 ++ [v]) else p)

/-- The bookkeeping state of the reduction phase of `findEpitopes`:
`coords` (unique `(st, en)` → representative row), `keepInds`, `redundantD`. -/
structure ReduceState where
  coordsAL : List ((Int × Int) × Nat)
  keepInds : List Nat
  redundantD : List (Nat × List Nat)
deriving DecidableEq

/-- One iteration of the reduction loop of `findEpitopes` for row `i`. -/
def reduceStep (responses : List Response) (st : ReduceState) (i : Nat) : ReduceState :=
  let key := ((nth responses i).start, (nth responses i).end_)
  match lookupAL st.coordsAL key with
  | none => ⟨st.coordsAL ++ [(key, i)], st.keepInds ++ [i], st.redundantD⟩
  | some rep =>
      match lookupAL st.redundantD rep with
      | some _ => ⟨st.coordsAL, st.keepInds, appendAL st.redundantD rep i⟩
      | none => ⟨st.coordsAL, st.keepInds, st.redundantD ++ [(rep, [i])]⟩

/-- The reduction phase of `findEpitopes` (`reduceResponses=True`). -/
def reduceResp (responses : List Response) : ReduceState :=
  (List.range responses.length).foldl (reduceStep responses) ⟨[], [], []⟩

/-- `set(s1).issubset(set(s2))`. -/
def subsetB (s1 s2 : List Nat) : Bool := s1.all (fun x => s2.contains x)

/-- `itertools.product(sharedSetsCopy, sharedSetsCopy)`, with each factor
enumerated with its position so that the source's object-identity test
`not s1 is s2` can be read as position inequality. -/
def pairsOf (l : List (List Nat)) : List ((Nat × List Nat) × (Nat × List Nat)) :=
  l.enum.flatMap (fun p1 => l.enum.map (fun p2 => (p1, p2)))

/-- Step 4 of `findEpitopes`: for every ordered pair of distinct accepted
sets, remove the first from the surviving list when it is a subset of the
second (`list.remove` of an absent value is the source's `except ValueError: pass`). -/
def removeSubsets (sharedSets : List (List Nat)) : List (List Nat) :=
  (pairsOf sharedSets).foldl
    (fun cur p => if p.1.1 != p.2.1 && subsetB p.1.2 p.2.2 then cur.erase p.1.2 else cur)
    sharedSets

/-- `all(eachExplained)` for candidate `s1` against the snapshot: every
member index of `s1` also lies in some other set of the snapshot. -/
def explainedB (snapshot : List (List Nat)) (s1 : List Nat) : Bool :=
  s1.all (fun respInd => snapshot.any (fun s2 => s2 != s1 && s2.contains respInd))

/-- One pass of the step-5 `while` loop: scan the snapshot in ascending
size order (`sorted(..., key=len)`, a stable sort) and return the first
fully-explained set, which the loop then removes. -/
def findRemovable (sharedSets : List (List Nat)) : Option (List Nat) :=
  (List.insertionSort (fun a b => a.length ≤ b.length) sharedSets).find? (explainedB sharedSets)

/-- The step-5 `while anyRemoved` loop.  Each pass removes exactly one set,
so `sharedSets.length` passes of fuel always reach the fixed point; the
fuel only makes the recursion structural. -/
def coverLoopF : Nat → List (List Nat) → List (List Nat)
  | 0, sets => sets
  | fuel + 1, sets =>
      match findRemovable sets with
      | some s1 => coverLoopF fuel (sets.erase s1)
      | none => sets

/-- Step 5 of `findEpitopes`: repeatedly remove a set all of whose members
are members of other surviving sets, smallest sets first, until none is. -/
def removeCovered (sharedSets : List (List Nat)) : List (List Nat) :=
  coverLoopF sharedSets.length sharedSets

/-- Step 6 of `findEpitopes`: re-expansion of one surviving reduced set —
each reduced index becomes its representative row followed by that row's
redundant duplicates. -/
def expandSet (red : ReduceState) (ss : List Nat) : List Nat :=
  ss.flatMap (fun reducedi =>
    let i := red.keepInds.getD reducedi 0
    i :: (lookupAL red.redundantD i).getD [])

/-- The surviving collection of (re-expanded) response-index subsets
computed by `findEpitopes(responses, sharedRule, reduceResponses=True)` —
the `expSharedSets` from which the epitope table is then assembled.
`sharedRule` is the boolean component of the pluggable predicate. -/
def findEpitopesSets (sharedRule : List Response → Bool) (responses : List Response) :
    List (List Nat) :=
  let red := reduceResp responses
  let redResp := red.keepInds.map (nth responses)
  let sharedSets1 := (subsetsAsc redResp.length).filter (fun ss => sharedRule (ss.map (nth redResp)))
  (removeCovered (removeSubsets sharedSets1)).map (expandSet red)

/-- `encodeVariants(peps)`: the `assert` on a single unique length is the
outer `Option`; per-column variant sets are deduplicated lists. -/
def encodeVariants (peps : List (List Char)) : Option (List Char) :=
  let filteredPeps := peps.filter (fun p => p.length != 0)
  let Ls := filteredPeps.map (fun s => s.length)
  if Ls.dedup.length = 1 then
    let L := Ls.getD 0 0
    let vs := (List.range L).map (fun i => (filteredPeps.map (fun p => p.getD i '?')).dedup)
    some (vs.foldl (fun out v => if v.length = 1 then out ++ v else out ++ ['['] ++ v ++ [']']) [])
  else none

/-- The character scan of `decodeVariants`: state `(inGroup, cur, vs)`,
one step per character, mirroring the four branches of the loop body. -/
def decodeLoop : List Char → Bool → List Char → List (List Char) → List (List Char)
  | [], _, _, vs => vs
  | c :: rest, inGroup, cur, vs =>
      if c ≠ '[' ∧ c ≠ ']' then
        if inGroup = false then decodeLoop rest inGroup cur (vs ++ [[c]])
        else decodeLoop rest inGroup (cur ++ [c]) vs
      else if c = '[' then decodeLoop rest true cur vs
      else decodeLoop rest false [] (vs ++ [cur])

/-- `itertools.product(*vs)` followed by `''.join`: all per-column choices. -/
def cartProd : List (List Char) → List (List Char)
  | [] => [[]]
  | g :: gs => g.flatMap (fun c => (cartProd gs).map (fun rest => c :: rest))

/-- `decodeVariants(s)`. -/
def decodeVariants (s : List Char) : List (List Char) :=
  cartProd (decodeLoop s false [] [])

/-- Is `pat` an initial segment of `hay`? (used for Python `str.find`). -/
def startsWithCL : List Char → List Char → Bool
  | [], _ => true
  | _ :: _, [] => false
  | p :: ps, c :: cs => p == c && startsWithCL ps cs

/-- Scan for the first occurrence of `pat`. -/
def strFindAux : List Char → List Char → Nat → Option Nat
  | [], pat, acc => if pat.isEmpty then some acc else none
  | c :: t, pat, acc =>
      if startsWithCL pat (c :: t) then some acc else strFindAux t pat (acc + 1)

/-- Python `seq.find(pep)`: first index of the substring, `-1` if absent. -/
def strFind (hay pat : List Char) : Int :=
  match strFindAux hay pat 0 with
  | some n => (n : Int)
  | none => -1

/-- The first `while` loop of `findpeptide` (`while ngCount < ngInd or
seq[pos] == '-'`), walking the remaining characters of `seq` from `pos`;
running off the end is the `IndexError` (`none`). -/
def scanStart : List Char → Int → Int → Nat → Option (Int × Nat)
  | [], _, _, _ => none
  | c :: rest, ngInd, ngCount, pos =>
      if ngCount < ngInd ∨ c = '-' then
        scanStart rest ngInd (if c ≠ '-' then ngCount + 1 else ngCount) (pos + 1)
      else some (ngCount, pos)

/-- The second `while` loop of `findpeptide` (`while count < len(pep)`),
collecting `pepOut` and advancing `endPos`; again `none` is `IndexError`. -/
def scanEnd : List Char → Nat → Nat → Nat → List Char → Option (Nat × List Char)
  | [], pepLen, count, endPos, pepOut =>
      if count < pepLen then none else some (endPos, pepOut)
  | c :: rest, pepLen, count, endPos, pepOut =>
      if count < pepLen then
        if c ≠ '-' then scanEnd rest pepLen (count + 1) (endPos + 1) (pepOut ++ [c])
        else scanEnd rest pepLen count (endPos + 1) (pepOut ++ ['-'])
      else some (endPos, pepOut)

/-- `findpeptide(pep, seq)` (with `returnGapped=False`): the gapped
`(startPos, endPos)` of `pep` in `seq`, or `(-1, -1)` when `ng.find(pep)`
fails and the gap-skip loop lands back on `-1`. -/
def findpeptide (pep seq : List Char) : Option (Int × Int) :=
  let ng := seq.filter (fun c => c != '-')
  let ngInd := strFind ng pep
  match scanStart seq ngInd 0 0 with
  | none => none
  | some p =>
      let startPos : Int := ngInd + ((p.2 : Int) - p.1)
      if startPos = -1 then some (-1, -1)
      else
        match scanEnd (seq.drop startPos.toNat) pep.length 0 startPos.toNat [] with
        | none => none
        | some q => some (startPos, (q.1 : Int))

/-- Python slicing `s[a:b]` (for `0 ≤ a ≤ b`). -/
def pySlice (s : List Char) (a b : Nat) : List Char := (s.drop a).take (b - a)

/-- Three responses on one protein: rows 0 and 1 are disjoint, row 2
overlaps both of them. -/
def rsC1 : List Response :=
  [⟨"env", 0, 5, "AAAAA".toList⟩, ⟨"env", 10, 15, "BBBBB".toList⟩,
   ⟨"env", 4, 11, "CCCCCCC".toList⟩]

/-- A single short response (3 residues on `[0, 3)`). -/
def rShort : Response := ⟨"env", 0, 3, "AAA".toList⟩

/-- A response whose `seq` is shorter than `end - start` (an alignment
deletion): `seq` has 3 residues but the coordinate span is `[0, 5)`. -/
def rGapDel : Response := ⟨"p", 0, 5, "AAA".toList⟩

/-- The boolean component of `overlapRule` at its default thresholds, as a
pluggable shared rule (`sharedRule(...)[0]`). -/
def overlapRuleDefaultB (island : List Response) : Bool :=
  match overlapRuleDefault island with
  | some (b, _) => b
  | none => false

/-- The boolean component of `identicalRule`, as a pluggable shared rule. -/
def identicalRuleB (island : List Response) : Bool :=
  match identicalRule island with
  | some (b, _) => b
  | none => false

/-- Two same-coordinate overlapping responses disagreeing at the last residue. -/
def islTen : List Response :=
  [⟨"env", 0, 10, "AAAAAAAAAA".toList⟩, ⟨"env", 0, 10, "AAAAAAAAAC".toList⟩]

/-- Two far-apart responses with distinct coordinates and distinct sequences. -/
def rsTwo : List Response :=
  [⟨"env", 0, 8, "AAAAAAAA".toList⟩, ⟨"env", 100, 108, "CCCCCCCC".toList⟩]

/-- The largest member `start` of a (non-empty) island — the left endpoint
of the shared-coordinate interval. -/
def maxStart : List Response → Int
  | [] => 0
  | r0 :: rest => rest.foldl (fun m r => max m r.start) r0.start

/-- The smallest member `end` of a (non-empty) island — the right endpoint
of the shared-coordinate interval. -/
def minEnd : List Response → Int
  | [] => 0
  | r0 :: rest => rest.foldl (fun m r => min m r.end_) r0.end_

/-- The loop invariant of `assignResponseIslands` after the first `n` rows
have been scanned: every island member is a scanned row, every scanned row
is a member of some island, and the members of one island are pairwise
connected by overlap chains. -/
def IslandsInv (rs : List Response) (n : Nat) (L : List (List Nat)) : Prop :=
  (∀ island ∈ L, ∀ i ∈ island, i < n)
  ∧ (∀ i, i < n → ∃ island ∈ L, i ∈ island)
  ∧ (∀ island ∈ L, ∀ i ∈ island, ∀ j ∈ island, Connected rs i j)

/-- The loop invariant of the reduction phase of `findEpitopes` after the
first `m` rows have been scanned: `keepInds` is strictly increasing and
within range, every coordinate-dict representative is kept, redundant rows
are in range and never kept, and every scanned row is either kept or
recorded as a redundant duplicate of a kept representative. -/
def ReduceInv (m : Nat) (st : ReduceState) : Prop :=
  st.keepInds.Pairwise (· < ·)
  ∧ (∀ x ∈ st.keepInds, x < m)
  ∧ (∀ p ∈ st.coordsAL, p.2 ∈ st.keepInds)
  ∧ (∀ p ∈ st.redundantD, ∀ x ∈ p.2, x < m ∧ x ∉ st.keepInds)
  ∧ (∀ i, i < m → i ∈ st.keepInds ∨
      ∃ rep l, rep ∈ st.keepInds ∧ lookupAL st.redundantD rep = some l ∧ i ∈ l)

/- ------------------------------------------------------------------ -/
/- Helper lemmas. -/

theorem dedup_eq_singleton_of_all_eq {α : Type} [DecidableEq α] (a : α) :
    ∀ (l : List α), (∀ x ∈ l, x = a) → (a :: l).dedup = [a]
  | [], _ => by simp
  | b :: t, h => by
      have hb : b = a := h b (by simp)
      subst hb
      have ht : ∀ x ∈ t, x = b := fun x hx => h x (by simp [hx])
      have hrec : (b :: t).dedup = [b] := dedup_eq_singleton_of_all_eq b t ht
      rw [List.dedup_cons_of_mem (by simp : b ∈ b :: t)]
      exact hrec

theorem all_eq_of_dedup_length_one {α : Type} [DecidableEq α] (a : α) (l : List α)
    (h : ((a :: l).dedup).length = 1) : ∀ x ∈ a :: l, x = a := by
  obtain ⟨b, hb⟩ : ∃ b, (a :: l).dedup = [b] := by
    match hdedup : (a :: l).dedup with
    | [] => rw [hdedup] at h; simp at h
    | [b] => exact ⟨b, rfl⟩
    | b :: c :: t => rw [hdedup] at h; simp at h
  have ha : a = b := by
    have hmem : a ∈ (a :: l).dedup := List.mem_dedup.mpr (by simp)
    rw [hb] at hmem; simpa using hmem
  intro x hx
  have hmem : x ∈ (a :: l).dedup := List.mem_dedup.mpr hx
  rw [hb] at hmem; simp at hmem; rw [hmem, ← ha]

theorem overlapStep_fst (island : List Response) (acc : Nat × Nat × List Char) (si : Int) :
    (overlapStep island acc si).1 =
      acc.1 + (if (colAAs island si).contains '-' then 0 else 1) := by
  by_cases h1 : '-' ∈ colAAs island si
  · simp [overlapStep, h1]
  · by_cases h2 : (colAAs island si).length = 1 <;> simp [overlapStep, h1, h2]

theorem overlapStep_snd (island : List Response) (acc : Nat × Nat × List Char) (si : Int) :
    (overlapStep island acc si).2.1 =
      acc.2.1 +
        (if !(colAAs island si).contains '-' && (colAAs island si).length == 1
          then 1 else 0) := by
  by_cases h1 : '-' ∈ colAAs island si
  · simp [overlapStep, h1]
  · by_cases h2 : (colAAs island si).length = 1 <;> simp [overlapStep, h1, h2]

theorem overlapStep_len (island : List Response) (acc : Nat × Nat × List Char) (si : Int) :
    (overlapStep island acc si).2.2.length = acc.2.2.length + 1 := by
  by_cases h1 : '-' ∈ colAAs island si
  · simp [overlapStep, h1]
  · by_cases h2 : (colAAs island si).length = 1 <;> simp [overlapStep, h1, h2]

theorem foldl_overlapStep_spec (island : List Response) :
    ∀ (l : List Int) (acc : Nat × Nat × List Char),
      (l.foldl (overlapStep island) acc).1 =
          acc.1 + l.countP (fun si => !(colAAs island si).contains '-')
        ∧ (l.foldl (overlapStep island) acc).2.1 =
          acc.2.1 + l.countP
            (fun si => !(colAAs island si).contains '-' && (colAAs island si).length == 1)
        ∧ (l.foldl (overlapStep island) acc).2.2.length = acc.2.2.length + l.length := by
  intro l
  induction l with
  | nil => intro acc; simp
  | cons si t ih =>
      intro acc
      obtain ⟨ha, hb, hc⟩ := ih (overlapStep island acc si)
      simp only [List.foldl_cons, List.countP_cons, List.length_cons]
      refine ⟨?_, ?_, ?_⟩
      · rw [ha, overlapStep_fst]
        by_cases h1 : (colAAs island si).contains '-' <;> simp [h1] <;> omega
      · rw [hb, overlapStep_snd]
        by_cases h1 : (!(colAAs island si).contains '-' && (colAAs island si).length == 1) <;>
          simp [h1] <;> omega
      · rw [hc, overlapStep_len]; omega

theorem overlapWalk_fst (island : List Response) :
    (overlapWalk island).1 = specOverlappingCols island := by
  have h := foldl_overlapStep_spec island (sharedCoords island) (0, 0, [])
  simpa [overlapWalk, specOverlappingCols] using h.1

theorem overlapWalk_snd (island : List Response) :
    (overlapWalk island).2.1 = specMatchingCols island := by
  have h := foldl_overlapStep_spec island (sharedCoords island) (0, 0, [])
  simpa [overlapWalk, specMatchingCols] using h.2.1

theorem overlapWalk_seq_length (island : List Response) :
    (overlapWalk island).2.2.length = (sharedCoords island).length := by
  have h := foldl_overlapStep_spec island (sharedCoords island) (0, 0, [])
  simpa [overlapWalk] using h.2.2

theorem overlapWalk_fst_le (island : List Response) :
    (overlapWalk island).1 ≤ (sharedCoords island).length := by
  rw [overlapWalk_fst]
  exact List.countP_le_length _

/- ------------------------------------------------------------------ -/
/- C5 -/

/-- C5 counterexample: for the single response `rGapDel` (coordinates
`[0, 5)`, sequence `"AAA"`), `identicalRule` accepts and returns
`EpEnd = start + len(seq) = 3`, which differs from the response's original
`end` coordinate 5 — so the descriptor does not carry the original end. -/
theorem C5_counterexample :
    identicalRule [rGapDel] = some (true, some ⟨"AAA".toList, 0, 3⟩)
    ∧ rGapDel.end_ = 5 ∧ (3 : Int) ≠ rGapDel.end_ := by
  refine ⟨by decide, by decide, by decide⟩

/-- C5 amended: for every non-empty island, `identicalRule` accepts iff all
members' `seq` strings are identical, and on acceptance the descriptor is
the first member's sequence with `EpStart` its `start` and `EpEnd` equal to
`start + len(seq)` (the original `end` only when the sequence is ungapped). -/
theorem C5_amended_thm (r0 : Response) (rest : List Response) :
    (identicalRule (r0 :: rest) =
        some (true, some ⟨r0.seq, r0.start, r0.start + (r0.seq.length : Int)⟩) ↔
      ∀ r ∈ r0 :: rest, r.seq = r0.seq)
    ∧ (¬ (∀ r ∈ r0 :: rest, r.seq = r0.seq) →
        identicalRule (r0 :: rest) = some (false, none)) := by
  have hcond : (((r0 :: rest).map (fun r => r.seq)).dedup).length = 1 ↔
      ∀ r ∈ r0 :: rest, r.seq = r0.seq := by
    constructor
    · intro h r hr
      have hall := all_eq_of_dedup_length_one r0.seq (rest.map (fun r => r.seq))
        (by simpa using h)
      exact hall r.seq (by simpa using List.mem_map_of_mem (fun r => r.seq) hr)
    · intro h
      have : ((r0 :: rest).map (fun r => r.seq)).dedup = [r0.seq] := by
        simp only [List.map_cons]
        refine dedup_eq_singleton_of_all_eq r0.seq _ ?_
        intro x hx
        obtain ⟨r, hr, rfl⟩ := List.mem_map.mp hx
        exact h r (by simp [hr])
      rw [this]
      rfl
  constructor
  · constructor
    · intro h r hr
      by_contra hne
      have hnot : ¬ (((r0 :: rest).map (fun r => r.seq)).dedup).length = 1 := by
        intro hone
        exact hne (hcond.mp hone r hr)
      rw [identicalRule, if_neg hnot] at h
      simp at h
    · intro h
      rw [identicalRule, if_pos (hcond.mpr h)]
  · intro h
    rw [identicalRule, if_neg (fun hone => h (hcond.mp hone))]

/-- C5 amended witness: the amended theorem applied at a concrete island of
two identical responses. -/
theorem C5_amended_witness :
    identicalRule [rShort, rShort] = some (true, some ⟨"AAA".toList, 0, 3⟩) := by
  have h := (C5_amended_thm rShort [rShort]).1.mpr (by decide)
  simpa using h

/- ------------------------------------------------------------------ -/
/- C6 -/

/-- C6 counterexample: on the empty island with thresholds
`minOverlap = 0`, `minSharedAA = 0`, the acceptance test `0 ≥ 0 and 0 ≥ 0`
passes and the code then evaluates `sharedInds[0]` of the empty shared
coordinate list — an `IndexError` (`none`), not a normal return. -/
theorem C6_counterexample : overlapRule ([] : List Response) 0 0 = none := by
  decide

/-- C6 amended: `identicalRule` never raises (it accepts every
single-response island with the copied descriptor and returns
`(False, {})` otherwise), and `overlapRule` returns `(False, {})` whenever
its sharing condition is unmet and returns normally whenever
`minOverlap ≥ 1`; only in the degenerate case of an empty shared-coordinate
set combined with both thresholds ≤ 0 does `overlapRule` raise. -/
theorem C6_amended_thm (island : List Response) (mo msa : Int) :
    (identicalRule island).isSome = true
    ∧ (∀ r : Response,
        identicalRule [r] = some (true, some ⟨r.seq, r.start, r.start + (r.seq.length : Int)⟩))
    ∧ (¬ (mo ≤ ((overlapWalk island).1 : Int) ∧ msa ≤ ((overlapWalk island).2.1 : Int)) →
        overlapRule island mo msa = some (false, none))
    ∧ (1 ≤ mo → (overlapRule island mo msa).isSome = true) := by
  refine ⟨?_, ?_, ?_, ?_⟩
  · match island with
    | [] => simp [identicalRule]
    | r0 :: rest =>
        rw [identicalRule]
        split_ifs <;> simp
  · intro r
    simp [identicalRule]
  · intro h
    rw [overlapRule, if_neg h]
  · intro hmo
    rw [overlapRule]
    split_ifs with h
    · have h1 : (1 : Int) ≤ ((overlapWalk island).1 : Int) := le_trans hmo h.1
      have h2 : 0 < (overlapWalk island).1 := by exact_mod_cast h1
      have h3 : 0 < (sharedCoords island).length :=
        lt_of_lt_of_le h2 (overlapWalk_fst_le island)
      match hsh : sharedCoords island with
      | [] => rw [hsh] at h3; simp at h3
      | si0 :: rest => simp
    · simp

/-- C6 amended witness: the amended theorem applied at the empty island and
at a singleton island, with thresholds `(8, 6)`. -/
theorem C6_amended_witness :
    (identicalRule ([] : List Response)).isSome = true
    ∧ (overlapRule ([] : List Response) 8 6).isSome = true
    ∧ identicalRule [rShort] = some (true, some ⟨"AAA".toList, 0, 3⟩) := by
  refine ⟨(C6_amended_thm [] 8 6).1, (C6_amended_thm [] 8 6).2.2.2 (by decide), ?_⟩
  have h := (C6_amended_thm [] 8 6).2.1 rShort
  simpa using h

/- ------------------------------------------------------------------ -/
/- C7 -/

/-- C7: `overlapRule` is monotonic in its thresholds — if an island is
accepted at `(minOverlap, minSharedAA)` then it is accepted at any pair of
thresholds that are pointwise no larger. -/
theorem C7_thm (island : List Response) (mo msa mo' msa' : Int)
    (hmo : mo' ≤ mo) (hmsa : msa' ≤ msa)
    (hacc : ∃ ep, overlapRule island mo msa = some (true, ep)) :
    ∃ ep, overlapRule island mo' msa' = some (true, ep) := by
  obtain ⟨ep, hep⟩ := hacc
  rw [overlapRule] at hep
  split_ifs at hep with h
  · rw [overlapRule, if_pos ⟨le_trans hmo h.1, le_trans hmsa h.2⟩]
    match hsh : sharedCoords island with
    | [] => rw [hsh] at hep; simp at hep
    | si0 :: rest => exact ⟨_, rfl⟩
  · simp at hep

/-- C7 witness: the island `islTen` is accepted at the default thresholds
`(8, 6)` and hence also at the loosened `(7, 5)`. -/
theorem C7_witness : ∃ ep, overlapRule islTen 7 5 = some (true, ep) :=
  C7_thm islTen 8 6 7 5 (by decide) (by decide)
    ⟨some ⟨"AAAAAAAAAX".toList, 0, 10⟩, by decide⟩

/- ------------------------------------------------------------------ -/
/- C4 -/

/-- C4: for every non-empty island and thresholds with `minOverlap ≥ 1`
(the defaults are 8 and 6), `overlapRule` accepts iff the number of
overlapping columns (no member contributes a gap) is at least `minOverlap`
and the number of matching columns (no gap and exactly one distinct
residue) is at least `minSharedAA`; `overlapRuleDefault` is the rule at the
declared defaults `(8, 6)`. -/
theorem C4_thm (island : List Response) (hne : island ≠ []) (mo msa : Int)
    (hmo : 1 ≤ mo) :
    ((∃ ep, overlapRule island mo msa = some (true, ep)) ↔
      mo ≤ (specOverlappingCols island : Int) ∧ msa ≤ (specMatchingCols island : Int))
    ∧ overlapRuleDefault island = overlapRule island 8 6 := by
  refine ⟨?_, rfl⟩
  have hw1 : ((overlapWalk island).1 : Int) = (specOverlappingCols island : Int) := by
    exact_mod_cast overlapWalk_fst island
  have hw2 : ((overlapWalk island).2.1 : Int) = (specMatchingCols island : Int) := by
    exact_mod_cast overlapWalk_snd island
  constructor
  · intro ⟨ep, hep⟩
    rw [overlapRule] at hep
    split_ifs at hep with h
    · rw [← hw1, ← hw2]; exact h
    · simp at hep
  · intro h
    rw [overlapRule, if_pos (by rw [hw1, hw2]; exact h)]
    have h1 : (1 : Int) ≤ (specOverlappingCols island : Int) := le_trans hmo h.1
    have h2 : 0 < specOverlappingCols island := by exact_mod_cast h1
    have h3 : 0 < (sharedCoords island).length := by
      have := overlapWalk_fst_le island
      rw [overlapWalk_fst island] at this
      omega
    match hsh : sharedCoords island with
    | [] => rw [hsh] at h3; simp at h3
    | si0 :: rest => exact ⟨_, rfl⟩

/-- C4 witness: at the island `islTen` (10 overlapping columns, 9 matching
columns), acceptance at the default thresholds follows from the counts. -/
theorem C4_witness : ∃ ep, overlapRule islTen 8 6 = some (true, ep) :=
  ((C4_thm islTen (by decide) 8 6 (by decide)).1).mpr (by decide)

/- ------------------------------------------------------------------ -/
/- C9 -/

/-- C9: `findpeptide "QKE" "KMQKEYALL"` returns the half-open occurrence
span `(2, 5)`, and on the gapped sequence `"KM-QKEYALL"` it returns
`(3, 6)` — the gap-counting span of the match itself (the gap immediately
before the match is skipped), so slicing the gapped string at those bounds
yields `"QKE"`, the equivalent span under the gap-counting rule. -/
theorem C9_thm :
    findpeptide "QKE".toList "KMQKEYALL".toList = some (2, 5)
    ∧ findpeptide "QKE".toList "KM-QKEYALL".toList = some (3, 6)
    ∧ pySlice "KM-QKEYALL".toList 3 6 = "QKE".toList
    ∧ pySlice "KMQKEYALL".toList 2 5 = "QKE".toList := by
  refine ⟨by decide, by decide, by decide, by decide⟩

/- ------------------------------------------------------------------ -/
/- C10: interval structure of sharedCoords and the descriptor span. -/

theorem intRange_mem (a b i : Int) : i ∈ intRange a b ↔ a ≤ i ∧ i < b := by
  unfold intRange
  constructor
  · intro h
    obtain ⟨k, hk, hik⟩ := List.mem_map.mp h
    rw [List.mem_range] at hk
    omega
  · intro ⟨h1, h2⟩
    refine List.mem_map.mpr ⟨(i - a).toNat, ?_, ?_⟩
    · rw [List.mem_range]; omega
    · omega

theorem intRange_nodup (a b : Int) : (intRange a b).Nodup := by
  unfold intRange
  refine List.Nodup.map ?_ (List.nodup_range _)
  intro x y hxy
  have h' : a + (x : Int) = a + (y : Int) := hxy
  omega

theorem intRange_sorted (a b : Int) : (intRange a b).Sorted (· < ·) := by
  unfold intRange
  refine List.Pairwise.map _ ?_ (List.pairwise_lt_range _)
  intro x y hxy
  omega

theorem intRange_length (a b : Int) : (intRange a b).length = (b - a).toNat := by
  rw [intRange, List.length_map, List.length_range]

theorem intRange_getElem (a b : Int) (i : Nat) (h : i < (intRange a b).length) :
    (intRange a b)[i] = a + (i : Int) := by
  simp only [intRange, List.getElem_map, List.getElem_range]

theorem intRange_chain' (a b : Int) :
    List.Chain' (fun x y => y = x + 1) (intRange a b) := by
  rw [List.chain'_iff_get]
  intro i h
  have h1 : i < (intRange a b).length := by omega
  have h2 : i + 1 < (intRange a b).length := by omega
  rw [List.get_eq_getElem, List.get_eq_getElem, intRange_getElem a b i h1,
    intRange_getElem a b (i + 1) h2]
  omega

theorem intRange_getLastD (a b : Int) (d : Int) (h : a < b) :
    (intRange a b).getLastD d = b - 1 := by
  have hlen : (intRange a b).length = (b - a).toNat := intRange_length a b
  have hpos : 0 < (intRange a b).length := by omega
  rw [List.getLastD_eq_getLast?, List.getLast?_eq_getElem?]
  have h1 : (intRange a b).length - 1 < (intRange a b).length := by omega
  rw [List.getElem?_eq_getElem h1, intRange_getElem a b _ h1]
  simp only [Option.getD_some]
  omega

theorem sorted_lt_ext {α : Type} [LinearOrder α] :
    ∀ (l1 l2 : List α), l1.Sorted (· < ·) → l2.Sorted (· < ·) →
      (∀ x, x ∈ l1 ↔ x ∈ l2) → l1 = l2
  | [], [], _, _, _ => rfl
  | [], b :: t2, _, _, hm => absurd ((hm b).mpr (by simp)) (by simp)
  | a :: t1, [], _, _, hm => absurd ((hm a).mp (by simp)) (by simp)
  | a :: t1, b :: t2, h1, h2, hm => by
      have hab : a = b := by
        have hb1 : b ∈ a :: t1 := (hm b).mpr (by simp)
        have ha2 : a ∈ b :: t2 := (hm a).mp (by simp)
        rcases List.mem_cons.mp hb1 with h | h
        · exact h.symm
        · rcases List.mem_cons.mp ha2 with h' | h'
          · exact h'
          · have hba : a < b := (List.pairwise_cons.mp h1).1 b h
            have hab2 : b < a := (List.pairwise_cons.mp h2).1 a h'
            exact absurd (lt_trans hba hab2) (lt_irrefl a)
      subst hab
      have ht : t1 = t2 := by
        apply sorted_lt_ext t1 t2 (List.Pairwise.of_cons h1) (List.Pairwise.of_cons h2)
        intro x
        constructor
        · intro hx
          have hx2 : x ∈ a :: t2 := (hm x).mp (by simp [hx])
          rcases List.mem_cons.mp hx2 with h' | h'
          · have hax : a < x := (List.pairwise_cons.mp h1).1 x hx
            exact absurd (h' ▸ hax) (lt_irrefl a)
          · exact h'
        · intro hx
          have hx1 : x ∈ a :: t1 := (hm x).mpr (by simp [hx])
          rcases List.mem_cons.mp hx1 with h' | h'
          · have hax : a < x := (List.pairwise_cons.mp h2).1 x hx
            exact absurd (h' ▸ hax) (lt_irrefl a)
          · exact h'
      rw [ht]

theorem foldl_filter_eq (q : Response → Int → Bool) :
    ∀ (l : List Response) (init : List Int),
      l.foldl (fun sc r => sc.filter (fun i => q r i)) init
        = init.filter (fun i => l.all (fun r => q r i)) := by
  intro l
  induction l with
  | nil => intro init; simp
  | cons r0 t ih =>
      intro init
      rw [List.foldl_cons, ih, List.filter_filter]
      apply List.filter_congr
      intro x _
      simp [List.all_cons, Bool.and_comm]

theorem mem_sharedCoords (r0 : Response) (rest : List Response) (i : Int) :
    i ∈ sharedCoords (r0 :: rest) ↔ ∀ r ∈ r0 :: rest, i ∈ _coords r := by
  unfold sharedCoords
  rw [(List.perm_insertionSort _ _).mem_iff, foldl_filter_eq]
  simp only [List.mem_filter, List.all_eq_true, List.elem_iff]
  constructor
  · intro h r hr
    exact h.2 r hr
  · intro h
    refine ⟨h r0 (by simp), fun r hr => h r hr⟩

theorem sharedCoords_nodup (r0 : Response) (rest : List Response) :
    (sharedCoords (r0 :: rest)).Nodup := by
  unfold sharedCoords
  refine (List.perm_insertionSort _ _).nodup_iff.mpr ?_
  rw [foldl_filter_eq]
  exact List.Nodup.filter _ (intRange_nodup _ _)

theorem sharedCoords_sorted_lt (r0 : Response) (rest : List Response) :
    (sharedCoords (r0 :: rest)).Sorted (· < ·) := by
  have hs : (sharedCoords (r0 :: rest)).Sorted (· ≤ ·) := by
    unfold sharedCoords
    exact List.sorted_insertionSort _ _
  exact List.Sorted.lt_of_le hs (sharedCoords_nodup r0 rest)

theorem foldl_max_le_iff (f : Response → Int) :
    ∀ (l : List Response) (a x : Int),
      (l.foldl (fun m r => max m (f r)) a) ≤ x ↔ a ≤ x ∧ ∀ r ∈ l, f r ≤ x := by
  intro l
  induction l with
  | nil => intro a x; simp
  | cons r0 t ih =>
      intro a x
      rw [List.foldl_cons, ih]
      simp only [max_le_iff, List.mem_cons]
      constructor
      · intro ⟨⟨h1, h2⟩, h3⟩
        exact ⟨h1, fun r hr => by rcases hr with rfl | hr; exact h2; exact h3 r hr⟩
      · intro ⟨h1, h2⟩
        exact ⟨⟨h1, h2 r0 (Or.inl rfl)⟩, fun r hr => h2 r (Or.inr hr)⟩

theorem lt_foldl_min_iff (f : Response → Int) :
    ∀ (l : List Response) (a x : Int),
      (x < l.foldl (fun m r => min m (f r)) a) ↔ x < a ∧ ∀ r ∈ l, x < f r := by
  intro l
  induction l with
  | nil => intro a x; simp
  | cons r0 t ih =>
      intro a x
      rw [List.foldl_cons, ih]
      simp only [lt_min_iff, List.mem_cons]
      constructor
      · intro ⟨⟨h1, h2⟩, h3⟩
        exact ⟨h1, fun r hr => by rcases hr with rfl | hr; exact h2; exact h3 r hr⟩
      · intro ⟨h1, h2⟩
        exact ⟨⟨h1, h2 r0 (Or.inl rfl)⟩, fun r hr => h2 r (Or.inr hr)⟩

theorem maxStart_le_iff (r0 : Response) (rest : List Response) (x : Int) :
    maxStart (r0 :: rest) ≤ x ↔ ∀ r ∈ r0 :: rest, r.start ≤ x := by
  unfold maxStart
  rw [foldl_max_le_iff]
  simp only [List.mem_cons]
  constructor
  · intro ⟨h1, h2⟩ r hr
    rcases hr with rfl | hr
    · exact h1
    · exact h2 r hr
  · intro h
    exact ⟨h r0 (Or.inl rfl), fun r hr => h r (Or.inr hr)⟩

theorem lt_minEnd_iff (r0 : Response) (rest : List Response) (x : Int) :
    x < minEnd (r0 :: rest) ↔ ∀ r ∈ r0 :: rest, x < r.end_ := by
  unfold minEnd
  rw [lt_foldl_min_iff]
  simp only [List.mem_cons]
  constructor
  · intro ⟨h1, h2⟩ r hr
    rcases hr with rfl | hr
    · exact h1
    · exact h2 r hr
  · intro h
    exact ⟨h r0 (Or.inl rfl), fun r hr => h r (Or.inr hr)⟩

theorem sharedCoords_eq_intRange (r0 : Response) (rest : List Response) :
    sharedCoords (r0 :: rest) = intRange (maxStart (r0 :: rest)) (minEnd (r0 :: rest)) := by
  apply sorted_lt_ext _ _ (sharedCoords_sorted_lt r0 rest) (intRange_sorted _ _)
  intro x
  rw [mem_sharedCoords, intRange_mem]
  constructor
  · intro h
    constructor
    · rw [maxStart_le_iff]
      intro r hr
      exact ((intRange_mem _ _ _).mp (h r hr)).1
    · rw [lt_minEnd_iff]
      intro r hr
      exact ((intRange_mem _ _ _).mp (h r hr)).2
  · intro ⟨h1, h2⟩ r hr
    rw [_coords, intRange_mem]
    exact ⟨le_trans (((maxStart_le_iff r0 rest _).mp le_rfl) r hr) h1,
      ((lt_minEnd_iff r0 rest _).mp h2) r hr⟩

theorem intRange_head? (a b : Int) (h : a < b) : (intRange a b).head? = some a := by
  have hlen : 0 < (intRange a b).length := by rw [intRange_length]; omega
  rw [List.head?_eq_getElem?, List.getElem?_eq_getElem hlen, intRange_getElem a b 0 hlen]
  simp

/-- C10: for every non-empty island, `sharedCoords` is a strictly ascending
contiguous run of integers, and whenever `overlapRule` accepts, the
descriptor satisfies `EpEnd - EpStart = len(EpSeq)` — the sequence spans
exactly the half-open range `[EpStart, EpEnd)`. -/
theorem C10_thm (island : List Response) (hne : island ≠ []) :
    List.Chain' (fun x y => y = x + 1) (sharedCoords island)
    ∧ (sharedCoords island).Sorted (· < ·)
    ∧ ∀ (mo msa : Int) (ep : EpDesc),
        overlapRule island mo msa = some (true, some ep) →
        ep.EpEnd - ep.EpStart = (ep.EpSeq.length : Int) := by
  match island with
  | [] => exact absurd rfl hne
  | r0 :: rest =>
      have hIR := sharedCoords_eq_intRange r0 rest
      refine ⟨by rw [hIR]; exact intRange_chain' _ _, sharedCoords_sorted_lt r0 rest, ?_⟩
      intro mo msa ep hep
      rw [overlapRule] at hep
      split_ifs at hep with hcond
      · rcases hsh : sharedCoords (r0 :: rest) with _ | ⟨si0, rest2⟩
        · rw [hsh] at hep; exact absurd hep (by simp)
        · rw [hsh] at hep
          simp only [Option.some.injEq, Prod.mk.injEq, true_and] at hep
          subst hep
          have hcomb : intRange (maxStart (r0 :: rest)) (minEnd (r0 :: rest)) = si0 :: rest2 :=
            hIR.symm.trans hsh
          have hlen : (si0 :: rest2).length
              = (minEnd (r0 :: rest) - maxStart (r0 :: rest)).toNat := by
            rw [← hcomb, intRange_length]
          have hAB : maxStart (r0 :: rest) < minEnd (r0 :: rest) := by
            simp only [List.length_cons] at hlen
            omega
          have hsi0 : si0 = maxStart (r0 :: rest) := by
            have hh := intRange_head? (maxStart (r0 :: rest)) (minEnd (r0 :: rest)) hAB
            rw [hcomb] at hh
            simpa using hh
          have hlast : rest2.getLastD si0 = minEnd (r0 :: rest) - 1 := by
            have hg := intRange_getLastD (maxStart (r0 :: rest)) (minEnd (r0 :: rest)) 0 hAB
            rw [hcomb] at hg
            rwa [List.getLastD_cons] at hg
          have hwlen : (overlapWalk (r0 :: rest)).2.2.length
              = (sharedCoords (r0 :: rest)).length := overlapWalk_seq_length _
          rw [hsh] at hwlen
          simp only [EpDesc.mk.injEq] at *
          rw [hlast, hsi0, hwlen, hlen]
          omega
      · exact absurd hep (by simp)

/-- C10 witness: the theorem applied to the concrete accepted island
`islTen`, whose descriptor spans `[0, 10)` with a 10-character sequence. -/
theorem C10_witness :
    (10 : Int) - 0 = (("AAAAAAAAAX".toList).length : Int) :=
  (C10_thm islTen (by decide)).2.2 8 6 ⟨"AAAAAAAAAX".toList, 0, 10⟩ (by decide)

/- ------------------------------------------------------------------ -/
/- C8: encodeVariants / decodeVariants round-trip. -/

theorem encode_foldl :
    ∀ (vs : List (List Char)) (out : List Char),
      vs.foldl (fun out v => if v.length = 1 then out ++ v else out ++ ['['] ++ v ++ [']']) out
        = out ++ (vs.map (fun v => if v.length = 1 then v else '[' :: (v ++ [']']))).flatten := by
  intro vs
  induction vs with
  | nil => intro out; simp
  | cons v t ih =>
      intro out
      rw [List.foldl_cons, ih]
      by_cases h : v.length = 1 <;> simp [h, List.append_assoc]

theorem decodeLoop_single (c : Char) (h1 : c ≠ '[') (h2 : c ≠ ']') (rest : List Char)
    (acc : List (List Char)) :
    decodeLoop (c :: rest) false [] acc = decodeLoop rest false [] (acc ++ [[c]]) := by
  simp [decodeLoop, h1, h2]

theorem decodeLoop_open (rest : List Char) (cur : List Char) (acc : List (List Char)) :
    decodeLoop ('[' :: rest) false cur acc = decodeLoop rest true cur acc := by
  simp [decodeLoop]

theorem decodeLoop_group :
    ∀ (g : List Char) (cur : List Char) (rest : List Char) (acc : List (List Char)),
      (∀ c ∈ g, c ≠ '[' ∧ c ≠ ']') →
      decodeLoop (g ++ (']' :: rest)) true cur acc
        = decodeLoop rest false [] (acc ++ [cur ++ g]) := by
  intro g
  induction g with
  | nil => intro cur rest acc h; simp [decodeLoop]
  | cons c g' ih =>
      intro cur rest acc h
      have hc := h c (by simp)
      have hrest : ∀ x ∈ g', x ≠ '[' ∧ x ≠ ']' := fun x hx => h x (by simp [hx])
      simp only [List.cons_append]
      rw [show decodeLoop (c :: (g' ++ (']' :: rest))) true cur acc
          = decodeLoop (g' ++ (']' :: rest)) true (cur ++ [c]) acc from by
        simp [decodeLoop, hc.1, hc.2]]
      rw [ih (cur ++ [c]) rest acc hrest]
      simp [List.append_assoc]

theorem decodeLoop_encoded :
    ∀ (vs : List (List Char)) (acc : List (List Char)),
      (∀ v ∈ vs, v ≠ [] ∧ ∀ c ∈ v, c ≠ '[' ∧ c ≠ ']') →
      decodeLoop ((vs.map (fun v => if v.length = 1 then v else '[' :: (v ++ [']']))).flatten)
          false [] acc
        = acc ++ vs := by
  intro vs
  induction vs with
  | nil => intro acc h; simp [decodeLoop]
  | cons v t ih =>
      intro acc h
      have hv := h v (by simp)
      have ht : ∀ u ∈ t, u ≠ [] ∧ ∀ c ∈ u, c ≠ '[' ∧ c ≠ ']' :=
        fun u hu => h u (by simp [hu])
      by_cases h1 : v.length = 1
      · obtain ⟨c, rfl⟩ := List.length_eq_one.mp h1
        have hc := hv.2 c (by simp)
        simp only [List.map_cons, List.flatten_cons, if_pos h1, List.singleton_append]
        rw [decodeLoop_single c hc.1 hc.2, ih (acc ++ [[c]]) ht]
        simp
      · simp only [List.map_cons, List.flatten_cons, if_neg h1, List.cons_append]
        rw [decodeLoop_open, List.append_assoc, List.singleton_append]
        rw [decodeLoop_group v [] _ acc hv.2, ih (acc ++ [[] ++ v]) ht]
        simp

theorem cartProd_mem :
    ∀ (gs : List (List Char)) (p : List Char),
      p ∈ cartProd gs ↔ List.Forall₂ (fun c g => c ∈ g) p gs := by
  intro gs
  induction gs with
  | nil =>
      intro p
      simp [cartProd, List.forall₂_nil_right_iff]
  | cons g t ih =>
      intro p
      simp only [cartProd, List.mem_flatMap, List.mem_map]
      constructor
      · rintro ⟨c, hc, q, hq, rfl⟩
        exact List.Forall₂.cons hc ((ih q).mp hq)
      · intro hp
        cases hp with
        | cons hc hq => exact ⟨_, hc, _, (ih _).mpr hq, rfl⟩

theorem forall2_range_map :
    ∀ (p : List Char) (L : Nat) (f : Nat → List Char),
      p.length = L → (∀ i, i < L → p.getD i '?' ∈ f i) →
      List.Forall₂ (fun c g => c ∈ g) p ((List.range L).map f) := by
  intro p
  induction p with
  | nil =>
      intro L f hL h
      have : L = 0 := by simpa using hL.symm
      subst this
      simp
  | cons c t ih =>
      intro L f hL h
      obtain rfl : L = t.length + 1 := by simpa using hL.symm
      rw [List.range_succ_eq_map, List.map_cons, List.map_map]
      refine List.Forall₂.cons ?_ ?_
      · have h0 := h 0 (by omega)
        simpa using h0
      · have hrec := ih t.length (fun i => f (i + 1)) rfl ?_
        · simpa [Function.comp_def] using hrec
        · intro i hi
          have hs := h (i + 1) (by omega)
          simpa using hs

/-- C8: every input peptide occurs in `decodeVariants (encodeVariants peps)`:
for every non-empty list of non-empty peptide strings of one common length
(over the residue alphabet, i.e. containing no bracket characters), the
encode succeeds and each peptide is among the decoded variants. -/
theorem C8_thm (peps : List (List Char)) (L : Nat)
    (hne : peps ≠ []) (hL : 0 < L) (hlen : ∀ p ∈ peps, p.length = L)
    (halpha : ∀ p ∈ peps, ∀ c ∈ p, c ≠ '[' ∧ c ≠ ']') :
    ∀ p ∈ peps, ∃ s, encodeVariants peps = some s ∧ p ∈ decodeVariants s := by
  intro p hp
  obtain ⟨p0, rest', rfl⟩ : ∃ p0 rest', peps = p0 :: rest' := by
    match peps, hne with
    | q :: qs, _ => exact ⟨q, qs, rfl⟩
  have hfilter : (p0 :: rest').filter (fun p => p.length != 0) = p0 :: rest' := by
    refine List.filter_eq_self.mpr ?_
    intro q hq
    have hq' := hlen q hq
    simp only [bne_iff_ne, ne_eq, hq']
    omega
  have hlen0 : p0.length = L := hlen p0 (by simp)
  have hdedup : (((p0 :: rest').map (fun s => s.length)).dedup) = [p0.length] := by
    rw [List.map_cons]
    refine dedup_eq_singleton_of_all_eq p0.length _ ?_
    intro x hx
    obtain ⟨q, hq, rfl⟩ := List.mem_map.mp hx
    rw [hlen q (by simp [hq]), hlen0]
  have hgetD : ((p0 :: rest').map (fun s => s.length)).getD 0 0 = L := by
    rw [List.map_cons, List.getD_cons_zero, hlen0]
  have henc : encodeVariants (p0 :: rest')
      = some ((((List.range L).map
          (fun i => ((p0 :: rest').map (fun q => q.getD i '?')).dedup)).map
            (fun v => if v.length = 1 then v else '[' :: (v ++ [']']))).flatten) := by
    simp only [encodeVariants]
    rw [hfilter, hdedup]
    simp only [List.length_singleton, if_pos rfl]
    rw [hgetD, encode_foldl]
    simp
  refine ⟨_, henc, ?_⟩
  have hgroups : ∀ v ∈ (List.range L).map
      (fun i => ((p0 :: rest').map (fun q => q.getD i '?')).dedup),
      v ≠ [] ∧ ∀ c ∈ v, c ≠ '[' ∧ c ≠ ']' := by
    intro v hv
    obtain ⟨i, hi, rfl⟩ := List.mem_map.mp hv
    constructor
    · intro hnil
      rw [List.dedup_eq_nil] at hnil
      simp at hnil
    · intro c hc
      rw [List.mem_dedup] at hc
      obtain ⟨q, hq, rfl⟩ := List.mem_map.mp hc
      have hiq : i < q.length := by rw [hlen q hq]; exact List.mem_range.mp hi
      have hqmem : q.getD i '?' ∈ q := by
        rw [List.getD_eq_getElem q '?' hiq]
        exact List.getElem_mem hiq
      exact halpha q hq _ hqmem
  rw [decodeVariants, decodeLoop_encoded _ [] hgroups]
  rw [List.nil_append, cartProd_mem]
  refine forall2_range_map p L _ (hlen p hp) ?_
  intro i hi
  rw [List.mem_dedup]
  exact List.mem_map.mpr ⟨p, hp, rfl⟩

/-- C8 witness: the theorem applied to the concrete pair
`["KMQ", "KKQ"]`, for which the encoding is `"K[MK]Q"`. -/
theorem C8_witness :
    ∃ s, encodeVariants ["KMQ".toList, "KKQ".toList] = some s
      ∧ "KMQ".toList ∈ decodeVariants s :=
  C8_thm ["KMQ".toList, "KKQ".toList] 3 (by decide) (by decide) (by decide) (by decide)
    "KMQ".toList (by decide)

/- ------------------------------------------------------------------ -/
/- C1: island assignment. -/

theorem overlap_mem_symm (r1 r2 : Response) (h : overlap r1 r2 = true) :
    overlap r2 r1 = true := by
  simp only [overlap, Bool.and_eq_true, beq_iff_eq, List.any_eq_true, List.elem_iff] at h ⊢
  obtain ⟨hp, x, hx1, hx2⟩ := h
  exact ⟨hp.symm, x, hx2, hx1⟩

theorem connected_base_symm (rs : List Response) :
    Symmetric (fun x y => overlap (nth rs x) (nth rs y) = true) :=
  fun _ _ h => overlap_mem_symm _ _ h

theorem connected_symm (rs : List Response) (i j : Nat) (h : Connected rs i j) :
    Connected rs j i :=
  Relation.ReflTransGen.symmetric (connected_base_symm rs) h

theorem addResponse_inv (rs : List Response) (n : Nat) (L : List (List Nat))
    (h : IslandsInv rs n L) : IslandsInv rs (n + 1) (addResponse rs L n) := by
  obtain ⟨hbnd, hcov, hconn⟩ := h
  by_cases hAny :
      L.any (fun island => island.any (fun j => overlap (nth rs n) (nth rs j))) = true
  · have hdef : addResponse rs L n = L.map (fun island =>
        if island.any (fun islandRespi => overlap (nth rs n) (nth rs islandRespi)) then
          island ++ [n]
        else island) := by
      rw [addResponse, if_pos hAny]
    rw [hdef]
    refine ⟨?_, ?_, ?_⟩
    · intro island' hisl' i hi
      obtain ⟨island, hisl, rfl⟩ := List.mem_map.mp hisl'
      split_ifs at hi with hov
      · rcases List.mem_append.mp hi with hi | hi
        · exact lt_trans (hbnd island hisl i hi) (by omega)
        · simp at hi; omega
      · exact lt_trans (hbnd island hisl i hi) (by omega)
    · intro i hi
      by_cases hin : i < n
      · obtain ⟨island, hisl, hii⟩ := hcov i hin
        refine ⟨_, List.mem_map_of_mem _ hisl, ?_⟩
        split_ifs with hov
        · exact List.mem_append_left _ hii
        · exact hii
      · have hieq : i = n := by omega
        subst hieq
        obtain ⟨island, hisl, hov⟩ := List.any_eq_true.mp hAny
        refine ⟨_, List.mem_map_of_mem _ hisl, ?_⟩
        rw [if_pos hov]
        exact List.mem_append_right _ (by simp)
    · intro island' hisl' i hi j hj
      obtain ⟨island, hisl, rfl⟩ := List.mem_map.mp hisl'
      split_ifs at hi hj with hov
      · obtain ⟨j0, hj0, hovj0⟩ := List.any_eq_true.mp hov
        have hconn_n : ∀ x ∈ island, Connected rs n x := by
          intro x hx
          exact Relation.ReflTransGen.trans
            (Relation.ReflTransGen.single hovj0) (hconn island hisl j0 hj0 x hx)
        rcases List.mem_append.mp hi with hi' | hi' <;>
          rcases List.mem_append.mp hj with hj' | hj'
        · exact hconn island hisl i hi' j hj'
        · simp at hj'
          subst hj'
          exact connected_symm rs j i (hconn_n i hi')
        · simp at hi'
          subst hi'
          exact hconn_n j hj'
        · simp at hi' hj'
          subst hi'
          subst hj'
          exact Relation.ReflTransGen.refl
      · exact hconn island hisl i hi j hj
  · have hdef : addResponse rs L n = L ++ [[n]] := by
      rw [addResponse, if_neg hAny]
    rw [hdef]
    refine ⟨?_, ?_, ?_⟩
    · intro island hisl i hi
      rcases List.mem_append.mp hisl with hisl | hisl
      · exact lt_trans (hbnd island hisl i hi) (by omega)
      · simp at hisl
        subst hisl
        simp at hi
        omega
    · intro i hi
      by_cases hin : i < n
      · obtain ⟨island, hisl, hii⟩ := hcov i hin
        exact ⟨island, List.mem_append_left _ hisl, hii⟩
      · have hieq : i = n := by omega
        exact ⟨[n], List.mem_append_right _ (by simp), by simp [hieq]⟩
    · intro island hisl i hi j hj
      rcases List.mem_append.mp hisl with hisl | hisl
      · exact hconn island hisl i hi j hj
      · simp at hisl
        subst hisl
        simp at hi hj
        subst hi
        subst hj
        exact Relation.ReflTransGen.refl

theorem islandListOf_inv (rs : List Response) :
    IslandsInv rs rs.length (islandListOf rs) := by
  suffices h : ∀ m, IslandsInv rs m ((List.range m).foldl (addResponse rs) []) from
    h rs.length
  intro m
  induction m with
  | zero =>
      refine ⟨?_, ?_, ?_⟩ <;> intro x hx <;> simp at hx
  | succ k ih =>
      rw [List.range_succ, List.foldl_append, List.foldl_cons, List.foldl_nil]
      exact addResponse_inv rs k _ ih

theorem mem_enumFrom_iff {α : Type} :
    ∀ (l : List α) (n i : Nat) (a : α),
      (i, a) ∈ l.enumFrom n ↔ n ≤ i ∧ l.get? (i - n) = some a := by
  intro l
  induction l with
  | nil => intro n i a; simp [List.enumFrom]
  | cons x xs ih =>
      intro n i a
      simp only [List.enumFrom, List.mem_cons, Prod.mk.injEq, ih]
      constructor
      · rintro (⟨rfl, rfl⟩ | ⟨h1, h2⟩)
        · simp
        · refine ⟨by omega, ?_⟩
          have harith : i - n = (i - (n + 1)) + 1 := by omega
          rw [harith, List.get?_cons_succ]
          exact h2
      · rintro ⟨h1, h2⟩
        by_cases hin : i = n
        · subst hin
          rw [Nat.sub_self, List.get?_cons_zero] at h2
          exact Or.inl ⟨rfl, by injection h2 with h2'; exact h2'.symm⟩
        · right
          refine ⟨by omega, ?_⟩
          have harith : i - n = (i - (n + 1)) + 1 := by omega
          rw [harith, List.get?_cons_succ] at h2
          exact h2

theorem mem_enum_iff {α : Type} (l : List α) (i : Nat) (a : α) :
    (i, a) ∈ l.enum ↔ l.get? i = some a := by
  rw [List.enum, mem_enumFrom_iff]
  simp

theorem mem_of_mem_enum {α : Type} {l : List α} {i : Nat} {a : α}
    (h : (i, a) ∈ l.enum) : a ∈ l :=
  List.get?_mem ((mem_enum_iff l i a).mp h)

theorem mem_enum_of_mem {α : Type} {l : List α} {a : α} (h : a ∈ l) :
    ∃ i, (i, a) ∈ l.enum := by
  obtain ⟨n, hn⟩ := List.mem_iff_get.mp h
  exact ⟨n.1, (mem_enum_iff l n.1 a).mpr (by rw [List.get?_eq_get n.2, hn])⟩

theorem enum_functional {α : Type} {l : List α} {i : Nat} {a b : α}
    (ha : (i, a) ∈ l.enum) (hb : (i, b) ∈ l.enum) : a = b := by
  rw [mem_enum_iff] at ha hb
  rw [ha] at hb
  injection hb

theorem colGet_set (col : List (Option Nat)) (x : Nat) (v : Option Nat) (i : Nat) :
    colGet (col.set x v) i = if i = x ∧ x < col.length then v else colGet col i := by
  unfold colGet
  rw [List.getD_eq_getElem?_getD, List.getD_eq_getElem?_getD]
  by_cases hix : i = x
  · subst hix
    by_cases hlt : i < col.length
    · rw [List.getElem?_set_self', List.getElem?_eq_getElem hlt]
      simp [hlt]
    · rw [List.set_eq_of_length_le (by omega)]
      simp [hlt]
  · rw [List.getElem?_set_ne (fun hc => hix hc.symm)]
    simp [hix]

theorem setFold_colGet (k : Nat) :
    ∀ (members : List Nat) (col : List (Option Nat)) (i : Nat),
      colGet (members.foldl (fun c x => c.set x (some k)) col) i
        = if i ∈ members ∧ i < col.length then some k else colGet col i := by
  intro members
  induction members with
  | nil => intro col i; simp
  | cons x t ih =>
      intro col i
      rw [List.foldl_cons, ih, List.length_set, colGet_set]
      by_cases hix : i = x
      · subst hix
        by_cases hit : i ∈ t <;> by_cases hlen : i < col.length <;>
          simp [hit, hlen, List.mem_cons]
      · by_cases hit : i ∈ t <;> by_cases hlen : i < col.length <;>
          simp [hit, hix, hlen, List.mem_cons]

theorem colFold_some_mem :
    ∀ (E : List (Nat × List Nat)) (col : List (Option Nat)) (i : Nat) (k : Nat),
      colGet (E.foldl (fun c p => p.2.foldl (fun c2 x => c2.set x (some p.1)) c) col) i
          = some k →
      (∃ p ∈ E, p.1 = k ∧ i ∈ p.2) ∨ colGet col i = some k := by
  intro E
  induction E with
  | nil => intro col i k h; exact Or.inr h
  | cons p t ih =>
      intro col i k h
      rw [List.foldl_cons] at h
      rcases ih _ i k h with ⟨q, hq, hqk, hqi⟩ | h2
      · exact Or.inl ⟨q, by simp [hq], hqk, hqi⟩
      · rw [setFold_colGet] at h2
        split_ifs at h2 with hcond
        · exact Or.inl ⟨p, by simp, Option.some.inj h2, hcond.1⟩
        · exact Or.inr h2

theorem setFold_length (v : Option Nat) :
    ∀ (members : List Nat) (col : List (Option Nat)),
      (members.foldl (fun c x => c.set x v) col).length = col.length := by
  intro members
  induction members with
  | nil => intro col; rfl
  | cons x t ih => intro col; rw [List.foldl_cons, ih, List.length_set]

theorem colFold_isSome :
    ∀ (E : List (Nat × List Nat)) (col : List (Option Nat)) (i : Nat),
      (((∃ p ∈ E, i ∈ p.2) ∧ i < col.length) ∨ (colGet col i).isSome = true) →
      (colGet (E.foldl (fun c p => p.2.foldl (fun c2 x => c2.set x (some p.1)) c) col) i).isSome
        = true := by
  intro E
  induction E with
  | nil =>
      intro col i h
      rcases h with ⟨⟨p, hp, -⟩, -⟩ | h
      · simp at hp
      · exact h
  | cons p t ih =>
      intro col i h
      rw [List.foldl_cons]
      apply ih
      rcases h with ⟨⟨q, hq, hqi⟩, hlen⟩ | hs
      · rcases List.mem_cons.mp hq with rfl | hq'
        · right
          rw [setFold_colGet]
          simp [hqi, hlen]
        · left
          exact ⟨⟨q, hq', hqi⟩, by rw [setFold_length]; exact hlen⟩
      · right
        rw [setFold_colGet]
        split_ifs with hcond
        · simp
        · exact hs

theorem islandColumn_isSome (rs : List Response) (i : Nat) (hi : i < rs.length) :
    (colGet (islandColumn rs) i).isSome = true := by
  obtain ⟨-, hcov, -⟩ := islandListOf_inv rs
  obtain ⟨island, hisl, hii⟩ := hcov i hi
  obtain ⟨k, hk⟩ := mem_enum_of_mem hisl
  unfold islandColumn
  apply colFold_isSome
  left
  exact ⟨⟨(k, island), hk, hii⟩, by rw [List.length_replicate]; exact hi⟩

theorem islandColumn_some_mem (rs : List Response) (i k : Nat)
    (h : colGet (islandColumn rs) i = some k) :
    ∃ island, (k, island) ∈ (islandListOf rs).enum ∧ i ∈ island := by
  unfold islandColumn at h
  rcases colFold_some_mem _ _ _ _ h with ⟨p, hp, hpk, hpi⟩ | h2
  · exact ⟨p.2, by rw [← hpk]; exact hp, hpi⟩
  · exfalso
    unfold colGet at h2
    rw [List.getD_eq_getElem?_getD, List.getElem?_replicate] at h2
    split_ifs at h2 <;> simp at h2

/-- C1 counterexample: in `rsC1`, response 2 overlaps responses 0 and 1,
which lie in two distinct islands; it is appended to BOTH islands (the
`break` only leaves the member loop, so "first matching island wins" is
false) and the final column gives response 2 the LAST matching island's
label: responses 0 and 2 overlap directly (hence are chain-connected) yet
receive different `IslandID`s, refuting the claimed iff. -/
theorem C1_counterexample :
    islandListOf rsC1 = [[0, 2], [1, 2]]
    ∧ overlap (nth rsC1 0) (nth rsC1 2) = true
    ∧ colGet (islandColumn rsC1) 0 = some 0
    ∧ colGet (islandColumn rsC1) 2 = some 1 := by
  refine ⟨by decide, by decide, by decide, by decide⟩

/-- C1 amended: every response receives exactly one (defined) `IslandID`,
and two responses with the same `IslandID` are connected by a chain of
pairwise overlaps.  (The converse fails: a response overlapping several
existing islands is appended to each of them and labelled with the last,
so chain-connected responses can receive different `IslandID`s, and
islands are never merged.) -/
theorem C1_amended_thm (rs : List Response) (i j : Nat)
    (hi : i < rs.length) (hj : j < rs.length) :
    (∃ k, colGet (islandColumn rs) i = some k)
    ∧ (colGet (islandColumn rs) i = colGet (islandColumn rs) j → Connected rs i j) := by
  have hsi := islandColumn_isSome rs i hi
  have hsj := islandColumn_isSome rs j hj
  obtain ⟨k, hk⟩ := Option.isSome_iff_exists.mp hsi
  refine ⟨⟨k, hk⟩, ?_⟩
  intro heq
  obtain ⟨k', hk'⟩ := Option.isSome_iff_exists.mp hsj
  rw [hk, hk'] at heq
  injection heq with heq'
  subst heq'
  obtain ⟨isl1, he1, hi1⟩ := islandColumn_some_mem rs i k hk
  obtain ⟨isl2, he2, hi2⟩ := islandColumn_some_mem rs j k hk'
  have hisl : isl1 = isl2 := enum_functional he1 he2
  obtain ⟨-, -, hconn⟩ := islandListOf_inv rs
  exact hconn isl1 (mem_of_mem_enum he1) i hi1 j (by rw [hisl]; exact hi2)

/-- C1 amended witness: the amended theorem applied to `rsC1` at rows 1 and
2, which share `IslandID` `I1` and are indeed connected. -/
theorem C1_amended_witness :
    (∃ k, colGet (islandColumn rsC1) 1 = some k) ∧ Connected rsC1 1 2 := by
  have h := C1_amended_thm rsC1 1 2 (by decide) (by decide)
  exact ⟨h.1, h.2 (by decide)⟩

/- ------------------------------------------------------------------ -/
/- C2/C3: the minimal explaining-set search. -/

theorem combinations_subset :
    ∀ (k : Nat) (xs : List Nat) (ss : List Nat), ss ∈ combinations k xs → ss ⊆ xs := by
  intro k
  induction k with
  | zero =>
      intro xs ss hss
      simp only [combinations, List.mem_singleton] at hss
      subst hss
      exact List.nil_subset xs
  | succ k ih =>
      intro xs
      induction xs with
      | nil => intro ss hss; simp [combinations] at hss
      | cons x xs' ihx =>
          intro ss hss
          rw [combinations, List.mem_append] at hss
          rcases hss with hss | hss
          · obtain ⟨c, hc, rfl⟩ := List.mem_map.mp hss
            intro y hy
            rcases List.mem_cons.mp hy with rfl | hy
            · simp
            · exact List.mem_cons_of_mem x (ih xs' c hc hy)
          · intro y hy
            exact List.mem_cons_of_mem x (ihx ss hss hy)

theorem combinations_length :
    ∀ (k : Nat) (xs : List Nat) (ss : List Nat), ss ∈ combinations k xs → ss.length = k := by
  intro k
  induction k with
  | zero =>
      intro xs ss hss
      simp only [combinations, List.mem_singleton] at hss
      simp [hss]
  | succ k ih =>
      intro xs
      induction xs with
      | nil => intro ss hss; simp [combinations] at hss
      | cons x xs' ihx =>
          intro ss hss
          rw [combinations, List.mem_append] at hss
          rcases hss with hss | hss
          · obtain ⟨c, hc, rfl⟩ := List.mem_map.mp hss
            simp [ih xs' c hc]
          · exact ihx ss hss

theorem combinations_pairwise :
    ∀ (k : Nat) (xs : List Nat), xs.Pairwise (· < ·) →
      ∀ ss ∈ combinations k xs, ss.Pairwise (· < ·) := by
  intro k
  induction k with
  | zero =>
      intro xs _ ss hss
      simp only [combinations, List.mem_singleton] at hss
      simp [hss]
  | succ k ih =>
      intro xs
      induction xs with
      | nil => intro _ ss hss; simp [combinations] at hss
      | cons x xs' ihx =>
          intro hx ss hss
          rw [combinations, List.mem_append] at hss
          rcases hss with hss | hss
          · obtain ⟨c, hc, rfl⟩ := List.mem_map.mp hss
            rw [List.pairwise_cons]
            refine ⟨?_, ih xs' (List.Pairwise.of_cons hx) c hc⟩
            intro y hy
            exact (List.pairwise_cons.mp hx).1 y (combinations_subset k xs' c hc hy)
          · exact ihx (List.Pairwise.of_cons hx) ss hss

theorem combinations_nodup :
    ∀ (k : Nat) (xs : List Nat), xs.Nodup → (combinations k xs).Nodup := by
  intro k
  induction k with
  | zero => intro xs _; simp [combinations]
  | succ k ih =>
      intro xs
      induction xs with
      | nil => intro _; simp [combinations]
      | cons x xs' ihx =>
          intro hx
          rw [combinations, List.nodup_append]
          refine ⟨?_, ihx (List.Nodup.of_cons hx), ?_⟩
          · refine List.Nodup.map ?_ (ih xs' (List.Nodup.of_cons hx))
            intro c1 c2 hc
            injection hc
          · intro ss hss1 hss2
            obtain ⟨c, hc, rfl⟩ := List.mem_map.mp hss1
            have hsub := combinations_subset (k + 1) xs' _ hss2
            have hxin : x ∈ xs' := hsub (by simp)
            exact (List.nodup_cons.mp hx).1 hxin

theorem singleton_mem_combinations :
    ∀ (xs : List Nat) (x : Nat), x ∈ xs → [x] ∈ combinations 1 xs := by
  intro xs
  induction xs with
  | nil => intro x hx; simp at hx
  | cons y ys ih =>
      intro x hx
      rw [combinations, List.mem_append]
      rcases List.mem_cons.mp hx with rfl | hx
      · exact Or.inl (by simp [combinations])
      · exact Or.inr (ih x hx)

theorem mem_subsetsAsc (n : Nat) (ss : List Nat) :
    ss ∈ subsetsAsc n ↔ ∃ N, N ∈ List.range' 1 n ∧ ss ∈ combinations N (List.range n) := by
  rw [subsetsAsc, List.mem_flatten]
  constructor
  · rintro ⟨l, hl, hss⟩
    obtain ⟨N, hN, rfl⟩ := List.mem_map.mp hl
    exact ⟨N, hN, hss⟩
  · rintro ⟨N, hN, hss⟩
    exact ⟨combinations N (List.range n), List.mem_map_of_mem _ hN, hss⟩

theorem subsetsAsc_bounded (n : Nat) (ss : List Nat) (hss : ss ∈ subsetsAsc n) :
    ∀ x ∈ ss, x < n := by
  obtain ⟨N, -, hc⟩ := (mem_subsetsAsc n ss).mp hss
  intro x hx
  exact List.mem_range.mp (combinations_subset N (List.range n) ss hc hx)

theorem subsetsAsc_pairwise (n : Nat) (ss : List Nat) (hss : ss ∈ subsetsAsc n) :
    ss.Pairwise (· < ·) := by
  obtain ⟨N, -, hc⟩ := (mem_subsetsAsc n ss).mp hss
  exact combinations_pairwise N (List.range n) (List.pairwise_lt_range n) ss hc

theorem subsetsAsc_ne_nil (n : Nat) (ss : List Nat) (hss : ss ∈ subsetsAsc n) :
    ss ≠ [] := by
  obtain ⟨N, hN, hc⟩ := (mem_subsetsAsc n ss).mp hss
  have hlen := combinations_length N (List.range n) ss hc
  obtain ⟨i, hi, hNe⟩ := List.mem_range'.mp hN
  intro hnil
  rw [hnil] at hlen
  simp at hlen
  omega

theorem subsetsAsc_nodup (n : Nat) : (subsetsAsc n).Nodup := by
  rw [subsetsAsc, List.nodup_flatten]
  constructor
  · intro l hl
    obtain ⟨N, hN, rfl⟩ := List.mem_map.mp hl
    exact combinations_nodup N (List.range n) (List.nodup_range n)
  · rw [List.pairwise_map]
    have hlt := List.pairwise_lt_range' 1 n
    refine List.Pairwise.imp ?_ hlt
    intro N M hNM ss hss1 hss2
    have h1 := combinations_length N (List.range n) ss hss1
    have h2 := combinations_length M (List.range n) ss hss2
    omega

theorem singleton_mem_subsetsAsc (n : Nat) (j : Nat) (hj : j < n) :
    [j] ∈ subsetsAsc n := by
  rw [mem_subsetsAsc]
  refine ⟨1, ?_, singleton_mem_combinations (List.range n) j (List.mem_range.mpr hj)⟩
  rw [List.mem_range']
  exact ⟨0, by omega, by omega⟩

theorem subsetB_iff (s1 s2 : List Nat) : subsetB s1 s2 = true ↔ s1 ⊆ s2 := by
  simp [subsetB, List.all_eq_true, List.elem_iff, List.subset_def]

theorem pairsOf_mem (l : List (List Nat)) (pp : (Nat × List Nat) × (Nat × List Nat)) :
    pp ∈ pairsOf l ↔ pp.1 ∈ l.enum ∧ pp.2 ∈ l.enum := by
  rw [pairsOf, List.mem_flatMap]
  constructor
  · rintro ⟨p1, h1, hmem⟩
    obtain ⟨p2, h2, rfl⟩ := List.mem_map.mp hmem
    exact ⟨h1, h2⟩
  · rintro ⟨h1, h2⟩
    exact ⟨pp.1, h1, List.mem_map.mpr ⟨pp.2, h2, rfl⟩⟩

theorem foldl_sublist {α β : Type} (step : List α → β → List α)
    (hstep : ∀ cur a, (step cur a).Sublist cur) :
    ∀ (ps : List β) (cur : List α), (ps.foldl step cur).Sublist cur := by
  intro ps
  induction ps with
  | nil => intro cur; exact List.Sublist.refl cur
  | cons p t ih =>
      intro cur
      rw [List.foldl_cons]
      exact List.Sublist.trans (ih (step cur p)) (hstep cur p)

theorem removeSubsets_sublist (sets : List (List Nat)) :
    (removeSubsets sets).Sublist sets := by
  rw [removeSubsets]
  refine foldl_sublist _ ?_ _ _
  intro cur pp
  split_ifs
  · exact List.erase_sublist _ _
  · exact List.Sublist.refl cur

theorem removeSubsets_maximal_mem (sets : List (List Nat)) (hnd : sets.Nodup)
    (s : List Nat) (hs : s ∈ sets) (hmax : ∀ t ∈ sets, s ⊆ t → s = t) :
    s ∈ removeSubsets sets := by
  rw [removeSubsets]
  have hgen : ∀ (ps : List ((Nat × List Nat) × (Nat × List Nat))),
      (∀ pp ∈ ps, pp ∈ pairsOf sets) →
      ∀ (cur : List (List Nat)), s ∈ cur →
      s ∈ ps.foldl
        (fun cur p => if p.1.1 != p.2.1 && subsetB p.1.2 p.2.2 then cur.erase p.1.2 else cur)
        cur := by
    intro ps
    induction ps with
    | nil => intro _ cur hcur; exact hcur
    | cons pp t ih =>
        intro hps cur hcur
        rw [List.foldl_cons]
        refine ih (fun q hq => hps q (by simp [hq])) _ ?_
        split_ifs with hcond
        · have hpp := (pairsOf_mem sets pp).mp (hps pp (by simp))
          rw [Bool.and_eq_true, bne_iff_ne] at hcond
          by_cases hs1 : pp.1.2 = s
          · exfalso
            have hsub : s ⊆ pp.2.2 := by
              rw [← hs1]
              exact (subsetB_iff _ _).mp hcond.2
            have h2mem : pp.2.2 ∈ sets :=
              mem_of_mem_enum (show (pp.2.1, pp.2.2) ∈ sets.enum from hpp.2)
            have hembed := hmax pp.2.2 h2mem hsub
            have he1 : (pp.1.1, s) ∈ sets.enum := by
              rw [← hs1]
              exact hpp.1
            have he2 : (pp.2.1, s) ∈ sets.enum := by
              rw [hembed]
              exact hpp.2
            rw [mem_enum_iff] at he1 he2
            have hij : pp.1.1 = pp.2.1 := by
              have hlt : pp.1.1 < sets.length := by
                obtain ⟨hb, -⟩ := List.get?_eq_some.mp he1
                exact hb
              exact List.get?_inj hlt hnd (he1.trans he2.symm)
            exact hcond.1 hij
          · exact (List.mem_erase_of_ne (fun h => hs1 h.symm)).mpr hcur
        · exact hcur
  exact hgen (pairsOf sets) (fun pp hpp => hpp) sets hs

theorem removeSubsets_antichain (sets : List (List Nat)) (hnd : sets.Nodup) :
    ∀ a ∈ removeSubsets sets, ∀ b ∈ removeSubsets sets, a ≠ b → ¬ a ⊆ b := by
  intro a ha b hb hab hsub
  have haS : a ∈ sets := (removeSubsets_sublist sets).subset ha
  have hbS : b ∈ sets := (removeSubsets_sublist sets).subset hb
  obtain ⟨ia, hia⟩ := mem_enum_of_mem haS
  obtain ⟨ib, hib⟩ := mem_enum_of_mem hbS
  have hij : ia ≠ ib := by
    intro h
    subst h
    exact hab (enum_functional hia hib)
  have hpp : ((ia, a), (ib, b)) ∈ pairsOf sets := (pairsOf_mem sets _).mpr ⟨hia, hib⟩
  obtain ⟨l1, l2, hsplit⟩ := List.append_of_mem hpp
  have hstep : ∀ (cur : List (List Nat)) (pp : (Nat × List Nat) × (Nat × List Nat)),
      (if pp.1.1 != pp.2.1 && subsetB pp.1.2 pp.2.2 then cur.erase pp.1.2 else cur).Sublist
        cur := by
    intro cur pp
    split_ifs
    · exact List.erase_sublist _ _
    · exact List.Sublist.refl cur
  have hrem : a ∉ removeSubsets sets := by
    rw [removeSubsets, hsplit, List.foldl_append, List.foldl_cons]
    have hcond : ((ia, a).1 != ((ib, b) : Nat × List Nat).1
        && subsetB (ia, a).2 ((ib, b) : Nat × List Nat).2) = true := by
      rw [Bool.and_eq_true, bne_iff_ne]
      exact ⟨hij, (subsetB_iff a b).mpr hsub⟩
    rw [if_pos hcond]
    have hcur1sub : (l1.foldl
        (fun cur p => if p.1.1 != p.2.1 && subsetB p.1.2 p.2.2 then cur.erase p.1.2 else cur)
        sets).Sublist sets :=
      foldl_sublist _ hstep l1 sets
    have hcur1nd := hcur1sub.nodup hnd
    have hnotmem : a ∉ (l1.foldl
        (fun cur p => if p.1.1 != p.2.1 && subsetB p.1.2 p.2.2 then cur.erase p.1.2 else cur)
        sets).erase a := by
      rw [List.Nodup.mem_erase_iff hcur1nd]
      simp
    intro hmem
    exact hnotmem ((foldl_sublist _ hstep l2 _).subset hmem)
  exact hrem ha

theorem subset_toFinset_subset (t u : List Nat) (h : t ⊆ u) : t.toFinset ⊆ u.toFinset :=
  fun x hx => List.mem_toFinset.mpr (h (List.mem_toFinset.mp hx))

theorem removeSubsets_coverage (sets : List (List Nat)) (hnd : sets.Nodup)
    (hsorted : ∀ s ∈ sets, s.Pairwise (· < ·)) (x : Nat) (s : List Nat)
    (hs : s ∈ sets) (hx : x ∈ s) :
    ∃ t ∈ removeSubsets sets, x ∈ t := by
  classical
  have hUne : s.toFinset ∈ ((sets.map List.toFinset).toFinset).filter
      (fun F => s.toFinset ⊆ F) := by
    rw [Finset.mem_filter]
    refine ⟨List.mem_toFinset.mpr (List.mem_map_of_mem _ hs), Finset.Subset.refl _⟩
  obtain ⟨M, hM, hMmax⟩ := Finset.exists_maximal _ ⟨s.toFinset, hUne⟩
  rw [Finset.mem_filter] at hM
  obtain ⟨hMmem, hsM⟩ := hM
  obtain ⟨t, ht, htM⟩ := List.mem_map.mp (List.mem_toFinset.mp hMmem)
  have htmax : ∀ u ∈ sets, t ⊆ u → t = u := by
    intro u hu htu
    have h1 : M ⊆ u.toFinset := htM ▸ subset_toFinset_subset t u htu
    have h2 : u.toFinset ∈ ((sets.map List.toFinset).toFinset).filter
        (fun F => s.toFinset ⊆ F) := by
      rw [Finset.mem_filter]
      exact ⟨List.mem_toFinset.mpr (List.mem_map_of_mem _ hu), hsM.trans h1⟩
    have h3 : ¬ M < u.toFinset := hMmax u.toFinset h2
    have h4 : M = u.toFinset := by
      rcases lt_or_eq_of_le h1 with h | h
      · exact absurd h h3
      · exact h
    refine sorted_lt_ext t u (hsorted t ht) (hsorted u hu) ?_
    intro y
    rw [← List.mem_toFinset, ← List.mem_toFinset (l := u), htM, h4]
  have htmem := removeSubsets_maximal_mem sets hnd t ht htmax
  refine ⟨t, htmem, ?_⟩
  have hxt : x ∈ s.toFinset := List.mem_toFinset.mpr hx
  have hxM : x ∈ M := hsM hxt
  rw [← htM] at hxM
  exact List.mem_toFinset.mp hxM

theorem explainedB_spec (snapshot : List (List Nat)) (s1 : List Nat) :
    explainedB snapshot s1 = true ↔
      ∀ x ∈ s1, ∃ s2 ∈ snapshot, s2 ≠ s1 ∧ x ∈ s2 := by
  simp [explainedB, List.all_eq_true, List.any_eq_true, bne_iff_ne, List.elem_iff,
    and_comm]

theorem findRemovable_some (sets : List (List Nat)) (s1 : List Nat)
    (h : findRemovable sets = some s1) :
    s1 ∈ sets ∧ explainedB sets s1 = true := by
  rw [findRemovable] at h
  exact ⟨(List.perm_insertionSort _ _).subset (List.mem_of_find?_eq_some h),
    List.find?_some h⟩

theorem findRemovable_none (sets : List (List Nat)) (h : findRemovable sets = none) :
    ∀ s1 ∈ sets, ¬ explainedB sets s1 = true := by
  rw [findRemovable] at h
  intro s1 hs1
  exact List.find?_eq_none.mp h s1 ((List.perm_insertionSort _ _).mem_iff.mpr hs1)

theorem coverLoopF_coverage :
    ∀ (fuel : Nat) (sets : List (List Nat)) (x : Nat),
      (∃ s ∈ sets, x ∈ s) → ∃ t ∈ coverLoopF fuel sets, x ∈ t := by
  intro fuel
  induction fuel with
  | zero => intro sets x h; exact h
  | succ fuel ih =>
      intro sets x h
      rw [coverLoopF]
      cases hfr : findRemovable sets with
      | none => exact h
      | some s1 =>
          obtain ⟨hs1m, hs1e⟩ := findRemovable_some sets s1 hfr
          apply ih
          obtain ⟨s, hsm, hxs⟩ := h
          by_cases hss1 : s = s1
          · subst hss1
            obtain ⟨s2, hs2m, hs2ne, hxs2⟩ := (explainedB_spec sets s).mp hs1e x hxs
            exact ⟨s2, (List.mem_erase_of_ne hs2ne).mpr hs2m, hxs2⟩
          · exact ⟨s, (List.mem_erase_of_ne hss1).mpr hsm, hxs⟩

theorem coverLoopF_fixpoint :
    ∀ (fuel : Nat) (sets : List (List Nat)), sets.length ≤ fuel →
      findRemovable (coverLoopF fuel sets) = none := by
  intro fuel
  induction fuel with
  | zero =>
      intro sets hlen
      have hnil : sets = [] := List.length_eq_zero.mp (by omega)
      subst hnil
      rfl
  | succ fuel ih =>
      intro sets hlen
      rw [coverLoopF]
      cases hfr : findRemovable sets with
      | none => exact hfr
      | some s1 =>
          obtain ⟨hs1m, -⟩ := findRemovable_some sets s1 hfr
          exact ih _ (by rw [List.length_erase_of_mem hs1m]; omega)

theorem coverLoopF_sublist :
    ∀ (fuel : Nat) (sets : List (List Nat)), (coverLoopF fuel sets).Sublist sets := by
  intro fuel
  induction fuel with
  | zero => intro sets; exact List.Sublist.refl sets
  | succ fuel ih =>
      intro sets
      rw [coverLoopF]
      cases hfr : findRemovable sets with
      | none => exact List.Sublist.refl sets
      | some s1 => exact List.Sublist.trans (ih _) (List.erase_sublist _ _)

theorem removeCovered_coverage (sets : List (List Nat)) (x : Nat)
    (h : ∃ s ∈ sets, x ∈ s) : ∃ t ∈ removeCovered sets, x ∈ t :=
  coverLoopF_coverage sets.length sets x h

theorem removeCovered_fixpoint (sets : List (List Nat)) :
    ∀ s1 ∈ removeCovered sets, ¬ explainedB (removeCovered sets) s1 = true :=
  findRemovable_none _ (coverLoopF_fixpoint sets.length sets le_rfl)

theorem removeCovered_sublist (sets : List (List Nat)) :
    (removeCovered sets).Sublist sets :=
  coverLoopF_sublist sets.length sets

theorem lookupAL_some_mem {α β : Type} [BEq α] [LawfulBEq α] (l : List (α × β)) (k : α)
    (v : β) (h : lookupAL l k = some v) : (k, v) ∈ l := by
  rw [lookupAL] at h
  cases hf : l.find? (fun p => p.1 == k) with
  | none => rw [hf] at h; simp at h
  | some p =>
      rw [hf] at h
      simp only [Option.map_some'] at h
      have hk : p.1 = k := by
        have := List.find?_some hf
        simpa using this
      have hm : p ∈ l := List.mem_of_find?_eq_some hf
      have hpv : p = (k, v) := by
        cases p
        simp only [Option.some.injEq] at h
        simp [← hk, ← h]
      rw [← hpv]
      exact hm

theorem lookupAL_append {α β : Type} [BEq α] (l1 l2 : List (α × β)) (k : α) :
    lookupAL (l1 ++ l2) k = (lookupAL l1 k).or (lookupAL l2 k) := by
  simp only [lookupAL, List.find?_append]
  cases hf : l1.find? (fun p => p.1 == k) <;> simp

theorem lookupAL_appendAL (l : List (Nat × List Nat)) (k : Nat) (v : Nat) (k' : Nat) :
    lookupAL (appendAL l k v) k' =
      (lookupAL l k').map (fun xs => if k' = k then xs ++ [v] else xs) := by
  rw [appendAL, lookupAL, List.find?_map, lookupAL]
  have hpred : ((fun (q : Nat × List Nat) => q.1 == k') ∘
      (fun p => if p.1 == k then (p.1, p.2 ++ [v]) else p)) = fun q => q.1 == k' := by
    funext q
    simp only [Function.comp]
    split_ifs <;> rfl
  rw [hpred]
  cases hf : l.find? (fun q => q.1 == k') with
  | none => simp
  | some q =>
      have hq : q.1 = k' := by simpa using List.find?_some hf
      simp only [Option.map_some']
      by_cases hqk : q.1 = k
      · rw [if_pos (by simp [hqk]), if_pos (by omega)]
      · rw [if_neg (by simp [hqk]), if_neg (by omega)]

theorem reduceStep_inv (rs : List Response) (m : Nat) (st : ReduceState)
    (h : ReduceInv m st) : ReduceInv (m + 1) (reduceStep rs st m) := by
  obtain ⟨hA, hB, hC, hD, hE⟩ := h
  rw [reduceStep]
  cases hc : lookupAL st.coordsAL ((nth rs m).start, (nth rs m).end_) with
  | none =>
      dsimp only
      refine ⟨?_, ?_, ?_, ?_, ?_⟩
      · rw [List.pairwise_append]
        refine ⟨hA, by simp, ?_⟩
        intro x hx y hy
        simp only [List.mem_singleton] at hy
        subst hy
        exact hB x hx
      · intro x hx
        rcases List.mem_append.mp hx with hx | hx
        · exact lt_trans (hB x hx) (by omega)
        · simp only [List.mem_singleton] at hx; omega
      · intro p hp
        rcases List.mem_append.mp hp with hp | hp
        · exact List.mem_append_left _ (hC p hp)
        · simp only [List.mem_singleton] at hp
          rw [hp]
          exact List.mem_append_right _ (by simp)
      · intro p hp x hx
        obtain ⟨hxm, hxk⟩ := hD p hp x hx
        refine ⟨by omega, ?_⟩
        intro hmem
        rcases List.mem_append.mp hmem with hmem | hmem
        · exact hxk hmem
        · simp only [List.mem_singleton] at hmem; omega
      · intro i hi
        by_cases him : i < m
        · rcases hE i him with hk | ⟨rep, l, hrep, hlook, hil⟩
          · exact Or.inl (List.mem_append_left _ hk)
          · exact Or.inr ⟨rep, l, List.mem_append_left _ hrep, hlook, hil⟩
        · have hieq : i = m := by omega
          subst hieq
          exact Or.inl (List.mem_append_right _ (by simp))
  | some rep =>
      dsimp only
      have hrepk : rep ∈ st.keepInds := hC _ (lookupAL_some_mem _ _ _ hc)
      have hmnotk : m ∉ st.keepInds := fun hmem => absurd (hB m hmem) (by omega)
      cases hr : lookupAL st.redundantD rep with
      | some l0 =>
          dsimp only
          refine ⟨hA, fun x hx => lt_trans (hB x hx) (by omega), hC, ?_, ?_⟩
          · intro p hp x hx
            rw [appendAL] at hp
            obtain ⟨q, hq, hpq⟩ := List.mem_map.mp hp
            by_cases hqk : q.1 = rep
            · rw [if_pos (by simp [hqk])] at hpq
              rw [← hpq] at hx
              simp only at hx
              rcases List.mem_append.mp hx with hx | hx
              · obtain ⟨h1, h2⟩ := hD q hq x hx
                exact ⟨by omega, h2⟩
              · simp only [List.mem_singleton] at hx
                subst hx
                exact ⟨by omega, hmnotk⟩
            · rw [if_neg (by simp [hqk])] at hpq
              rw [← hpq] at hx
              obtain ⟨h1, h2⟩ := hD q hq x hx
              exact ⟨by omega, h2⟩
          · intro i hi
            by_cases him : i < m
            · rcases hE i him with hk | ⟨rep', l', hrep', hlook', hil'⟩
              · exact Or.inl hk
              · refine Or.inr ⟨rep', if rep' = rep then l' ++ [m] else l', hrep', ?_, ?_⟩
                · rw [lookupAL_appendAL, hlook']
                  rfl
                · split_ifs
                  · exact List.mem_append_left _ hil'
                  · exact hil'
            · have hieq : i = m := by omega
              refine Or.inr ⟨rep, l0 ++ [m], hrepk, ?_, by simp [hieq]⟩
              rw [lookupAL_appendAL, hr]
              simp
      | none =>
          dsimp only
          refine ⟨hA, fun x hx => lt_trans (hB x hx) (by omega), hC, ?_, ?_⟩
          · intro p hp x hx
            rcases List.mem_append.mp hp with hp | hp
            · obtain ⟨h1, h2⟩ := hD p hp x hx
              exact ⟨by omega, h2⟩
            · simp only [List.mem_singleton] at hp
              rw [hp] at hx
              simp only [List.mem_singleton] at hx
              subst hx
              exact ⟨by omega, hmnotk⟩
          · intro i hi
            by_cases him : i < m
            · rcases hE i him with hk | ⟨rep', l', hrep', hlook', hil'⟩
              · exact Or.inl hk
              · refine Or.inr ⟨rep', l', hrep', ?_, hil'⟩
                rw [lookupAL_append, hlook']
                rfl
            · have hieq : i = m := by omega
              refine Or.inr ⟨rep, [m], hrepk, ?_, by simp [hieq]⟩
              rw [lookupAL_append, hr]
              simp [lookupAL]

theorem reduceResp_inv (rs : List Response) :
    ReduceInv rs.length (reduceResp rs) := by
  suffices h : ∀ m, ReduceInv m ((List.range m).foldl (reduceStep rs) ⟨[], [], []⟩) from
    h rs.length
  intro m
  induction m with
  | zero =>
      refine ⟨by simp, by simp, by simp, by simp, ?_⟩
      intro i hi
      omega
  | succ k ih =>
      rw [List.range_succ, List.foldl_append, List.foldl_cons, List.foldl_nil]
      exact reduceStep_inv rs k _ ih

theorem keepInds_nodup (rs : List Response) : (reduceResp rs).keepInds.Nodup :=
  (reduceResp_inv rs).1.imp (fun h => ne_of_lt h)

theorem nth_map_keep (rs : List Response) (j : Nat)
    (hj : j < (reduceResp rs).keepInds.length) :
    nth ((reduceResp rs).keepInds.map (nth rs)) j
      = nth rs ((reduceResp rs).keepInds.getD j 0) := by
  rw [nth, nth, List.getD_eq_getElem _ _ (by rw [List.length_map]; exact hj),
    List.getElem_map, List.getD_eq_getElem _ _ hj]
  rfl

theorem keep_getD_mem (rs : List Response) (j : Nat)
    (hj : j < (reduceResp rs).keepInds.length) :
    (reduceResp rs).keepInds.getD j 0 ∈ (reduceResp rs).keepInds := by
  rw [List.getD_eq_getElem _ _ hj]
  exact List.getElem_mem hj

theorem keep_getD_inj (rs : List Response) (j j' : Nat)
    (hj : j < (reduceResp rs).keepInds.length) (hj' : j' < (reduceResp rs).keepInds.length)
    (h : (reduceResp rs).keepInds.getD j 0 = (reduceResp rs).keepInds.getD j' 0) : j = j' := by
  rw [List.getD_eq_getElem _ _ hj, List.getD_eq_getElem _ _ hj'] at h
  have hn := keepInds_nodup rs
  exact (List.Nodup.getElem_inj_iff hn).mp h

theorem keep_mem_expandSet_iff (rs : List Response) (ss : List Nat) (j : Nat)
    (hj : j < (reduceResp rs).keepInds.length)
    (hss : ∀ a ∈ ss, a < (reduceResp rs).keepInds.length) :
    (reduceResp rs).keepInds.getD j 0 ∈ expandSet (reduceResp rs) ss ↔ j ∈ ss := by
  obtain ⟨hA, hB, hC, hD, hE⟩ := reduceResp_inv rs
  constructor
  · intro h
    obtain ⟨ri, hri, hmem⟩ := List.mem_flatMap.mp h
    rcases List.mem_cons.mp hmem with heq | hred
    · have hrij : j = ri := keep_getD_inj rs j ri hj (hss ri hri) heq
      rw [hrij]
      exact hri
    · exfalso
      cases hlk : lookupAL (reduceResp rs).redundantD ((reduceResp rs).keepInds.getD ri 0) with
      | none => rw [hlk] at hred; simp at hred
      | some lred =>
          rw [hlk] at hred
          simp only [Option.getD_some] at hred
          have hpair := lookupAL_some_mem _ _ _ hlk
          exact (hD _ hpair _ hred).2 (keep_getD_mem rs j hj)
  · intro h
    exact List.mem_flatMap.mpr ⟨j, h, by simp⟩

/-- C2 counterexample: for the one-response island `[rShort]` (3 residues)
and the `overlapRule` predicate at its default thresholds, no subset passes
the rule, so the surviving collection is empty and its union does not equal
the island's index set `{0}`. -/
theorem C2_counterexample :
    findEpitopesSets overlapRuleDefaultB [rShort] = []
    ∧ 0 < ([rShort] : List Response).length
    ∧ ¬ ∃ ss ∈ findEpitopesSets overlapRuleDefaultB [rShort], 0 ∈ ss := by
  refine ⟨by decide, by decide, by decide⟩

/-- C2 amended: the union of the surviving (re-expanded) subsets equals the
set of response indices that are covered by some rule-accepted subset; in
particular, when the shared rule accepts every single response, every
response index belongs to at least one surviving re-expanded subset
(completeness as originally claimed).  Without that proviso completeness
can fail. -/
theorem C2_amended_thm (sharedRule : List Response → Bool) (responses : List Response)
    (h : ∀ r ∈ responses, sharedRule [r] = true) :
    ∀ i, i < responses.length →
      ∃ ss ∈ findEpitopesSets sharedRule responses, i ∈ ss := by
  intro i hi
  obtain ⟨hA, hB, hC, hD, hE⟩ := reduceResp_inv responses
  have hn' : ((reduceResp responses).keepInds.map (nth responses)).length
      = (reduceResp responses).keepInds.length := List.length_map _ _
  have hdef : findEpitopesSets sharedRule responses =
      (removeCovered (removeSubsets
        ((subsetsAsc ((reduceResp responses).keepInds.map (nth responses)).length).filter
          (fun ss => sharedRule
            (ss.map (nth ((reduceResp responses).keepInds.map (nth responses)))))))).map
        (expandSet (reduceResp responses)) := rfl
  have hcover : ∀ j, j < (reduceResp responses).keepInds.length →
      ∃ t ∈ removeCovered (removeSubsets
        ((subsetsAsc ((reduceResp responses).keepInds.map (nth responses)).length).filter
          (fun ss => sharedRule
            (ss.map (nth ((reduceResp responses).keepInds.map (nth responses))))))), j ∈ t := by
    intro j hj
    have hsingle : [j] ∈
        (subsetsAsc ((reduceResp responses).keepInds.map (nth responses)).length).filter
          (fun ss => sharedRule
            (ss.map (nth ((reduceResp responses).keepInds.map (nth responses))))) := by
      rw [List.mem_filter]
      constructor
      · rw [hn']
        exact singleton_mem_subsetsAsc _ j hj
      · have hmap : ([j].map (nth ((reduceResp responses).keepInds.map (nth responses))))
            = [nth responses ((reduceResp responses).keepInds.getD j 0)] := by
          rw [List.map_singleton, nth_map_keep responses j hj]
        rw [hmap]
        have hkm : (reduceResp responses).keepInds.getD j 0 < responses.length :=
          hB _ (keep_getD_mem responses j hj)
        have hrmem : nth responses ((reduceResp responses).keepInds.getD j 0) ∈ responses := by
          rw [nth, List.getD_eq_getElem _ _ hkm]
          exact List.getElem_mem hkm
        exact h _ hrmem
    have hnodupF : ((subsetsAsc ((reduceResp responses).keepInds.map (nth responses)).length).filter
        (fun ss => sharedRule
          (ss.map (nth ((reduceResp responses).keepInds.map (nth responses)))))).Nodup :=
      (subsetsAsc_nodup _).filter _
    have hsortedF : ∀ s ∈ (subsetsAsc
        ((reduceResp responses).keepInds.map (nth responses)).length).filter
          (fun ss => sharedRule
            (ss.map (nth ((reduceResp responses).keepInds.map (nth responses))))),
        s.Pairwise (· < ·) :=
      fun s hs => subsetsAsc_pairwise _ s (List.mem_of_mem_filter hs)
    obtain ⟨t, ht, hjt⟩ :=
      removeSubsets_coverage _ hnodupF hsortedF j [j] hsingle (by simp)
    exact removeCovered_coverage _ j ⟨t, ht, hjt⟩
  rw [hdef]
  rcases hE i hi with hk | ⟨rep, l, hrep, hlook, hil⟩
  · obtain ⟨⟨j, hjlen⟩, hkeepj⟩ := List.mem_iff_get.mp hk
    have hgetD : (reduceResp responses).keepInds.getD j 0 = i := by
      rw [List.getD_eq_getElem _ _ hjlen]
      exact hkeepj
    obtain ⟨t, ht, hjt⟩ := hcover j hjlen
    refine ⟨expandSet (reduceResp responses) t, List.mem_map_of_mem _ ht, ?_⟩
    refine List.mem_flatMap.mpr ⟨j, hjt, ?_⟩
    rw [hgetD]
    simp
  · obtain ⟨⟨j, hjlen⟩, hkeepj⟩ := List.mem_iff_get.mp hrep
    have hgetD : (reduceResp responses).keepInds.getD j 0 = rep := by
      rw [List.getD_eq_getElem _ _ hjlen]
      exact hkeepj
    obtain ⟨t, ht, hjt⟩ := hcover j hjlen
    refine ⟨expandSet (reduceResp responses) t, List.mem_map_of_mem _ ht, ?_⟩
    refine List.mem_flatMap.mpr ⟨j, hjt, ?_⟩
    show i ∈ (reduceResp responses).keepInds.getD j 0 ::
      (lookupAL (reduceResp responses).redundantD
        ((reduceResp responses).keepInds.getD j 0)).getD []
    rw [hgetD, hlook]
    simp only [Option.getD_some]
    exact List.mem_cons_of_mem _ hil

/-- C2 amended witness: with a rule accepting exactly the singletons, both
responses of `rsTwo` are covered by a surviving subset. -/
theorem C2_amended_witness :
    ∃ ss ∈ findEpitopesSets (fun isl => isl.length == 1) rsTwo, 0 ∈ ss :=
  C2_amended_thm (fun isl => isl.length == 1) rsTwo (by decide) 0 (by decide)

theorem searchOut_antichain (responses : List Response) (filtered : List (List Nat))
    (hnodupF : filtered.Nodup)
    (hboundF : ∀ s ∈ filtered, ∀ a ∈ s, a < (reduceResp responses).keepInds.length) :
    ∀ s ∈ (removeCovered (removeSubsets filtered)).map (expandSet (reduceResp responses)),
    ∀ t ∈ (removeCovered (removeSubsets filtered)).map (expandSet (reduceResp responses)),
      s ≠ t → ¬ s ⊆ t := by
  intro s hs t ht hne hsub
  obtain ⟨ss, hssS, rfl⟩ := List.mem_map.mp hs
  obtain ⟨tt, httS, rfl⟩ := List.mem_map.mp ht
  have hssF : ss ∈ filtered :=
    ((removeCovered_sublist _).trans (removeSubsets_sublist _)).subset hssS
  have httF : tt ∈ filtered :=
    ((removeCovered_sublist _).trans (removeSubsets_sublist _)).subset httS
  have hsstt : ss ⊆ tt := by
    intro j hj
    have hjlen := hboundF ss hssF j hj
    have hkeep : (reduceResp responses).keepInds.getD j 0
        ∈ expandSet (reduceResp responses) ss :=
      (keep_mem_expandSet_iff responses ss j hjlen (hboundF ss hssF)).mpr hj
    exact (keep_mem_expandSet_iff responses tt j hjlen (hboundF tt httF)).mp (hsub hkeep)
  have hssne : ss ≠ tt := fun hx => hne (by rw [hx])
  exact removeSubsets_antichain filtered hnodupF ss ((removeCovered_sublist _).subset hssS)
    tt ((removeCovered_sublist _).subset httS) hssne hsstt

theorem searchOut_unique (responses : List Response) (filtered : List (List Nat))
    (hboundF : ∀ s ∈ filtered, ∀ a ∈ s, a < (reduceResp responses).keepInds.length) :
    ∀ s ∈ (removeCovered (removeSubsets filtered)).map (expandSet (reduceResp responses)),
      ∃ x ∈ s, ∀ t ∈ (removeCovered (removeSubsets filtered)).map
        (expandSet (reduceResp responses)), t ≠ s → x ∉ t := by
  intro s hs
  obtain ⟨ss, hssS, rfl⟩ := List.mem_map.mp hs
  have hssF : ss ∈ filtered :=
    ((removeCovered_sublist _).trans (removeSubsets_sublist _)).subset hssS
  have hfix := removeCovered_fixpoint (removeSubsets filtered) ss hssS
  rw [explainedB_spec] at hfix
  push_neg at hfix
  obtain ⟨x, hxss, hxforall⟩ := hfix
  have hxlen := hboundF ss hssF x hxss
  refine ⟨(reduceResp responses).keepInds.getD x 0,
    (keep_mem_expandSet_iff responses ss x hxlen (hboundF ss hssF)).mpr hxss, ?_⟩
  intro t ht htne
  obtain ⟨tt, httS, rfl⟩ := List.mem_map.mp ht
  have httF : tt ∈ filtered :=
    ((removeCovered_sublist _).trans (removeSubsets_sublist _)).subset httS
  by_cases httss : tt = ss
  · exact absurd (by rw [httss]) htne
  · intro hmem
    have hxtt : x ∈ tt :=
      (keep_mem_expandSet_iff responses tt x hxlen (hboundF tt httF)).mp hmem
    exact hxforall tt httS httss hxtt

/-- C3: the surviving collection of `findEpitopes` is non-redundant — no
surviving (re-expanded) subset is a strict subset of another, and every
surviving subset contains a response index present in no other surviving
subset (so removing any single surviving subset would break completeness). -/
theorem C3_thm (sharedRule : List Response → Bool) (responses : List Response) :
    (∀ s ∈ findEpitopesSets sharedRule responses,
      ∀ t ∈ findEpitopesSets sharedRule responses, s ≠ t → ¬ s ⊆ t)
    ∧ ∀ s ∈ findEpitopesSets sharedRule responses,
      ∃ x ∈ s, ∀ t ∈ findEpitopesSets sharedRule responses, t ≠ s → x ∉ t := by
  have hboundF : ∀ s ∈
      (subsetsAsc ((reduceResp responses).keepInds.map (nth responses)).length).filter
        (fun ss => sharedRule
          (ss.map (nth ((reduceResp responses).keepInds.map (nth responses))))),
      ∀ a ∈ s, a < (reduceResp responses).keepInds.length := by
    intro s hs a ha
    have hb := subsetsAsc_bounded _ s (List.mem_of_mem_filter hs) a ha
    rw [List.length_map] at hb
    exact hb
  exact ⟨searchOut_antichain responses _ ((subsetsAsc_nodup _).filter _) hboundF,
    searchOut_unique responses _ hboundF⟩

/-- C3 witness: for `rsTwo` under the identity rule the surviving
collection is `[[0], [1]]`; the theorem yields that `[0] ⊄ [1]` and that
`[0]` holds an index unique to it. -/
theorem C3_witness :
    (¬ ([0] : List Nat) ⊆ [1])
    ∧ ∃ x ∈ ([0] : List Nat),
        ∀ t ∈ findEpitopesSets identicalRuleB rsTwo, t ≠ [0] → x ∉ t := by
  constructor
  · exact (C3_thm identicalRuleB rsTwo).1 [0] (by decide) [1] (by decide) (by decide)
  · exact (C3_thm identicalRuleB rsTwo).2 [0] (by decide)
